import Mathlib

/-!
Shallow embedding of `src/main.py` (a transportation service model with
itinerary reconstruction, OD leg resolution, booking history aggregation and a
price-cascading booking forecast), together with proofs about the claims of
the specification.

Modelling conventions:
* `Station` is modelled by `Nat` (Python compares stations by object identity;
  a numeric identity is sufficient).
* Python `dict`s (`pricing`, `demand_matrix`) are modelled by association
  lists whose lookups and updates act on the first matching key; a dict is an
  association list whose keys are pairwise distinct.
* Prices, seat counts, demands, day offsets and booking counts are modelled by
  `Int` (every price occurring in the repository's data is integral, and
  Python's ints are unbounded).
* Python `while` loops are modelled by fuel-indexed recursion.  Where the
  source loop provably terminates, the chosen fuel is provably sufficient
  (`sellLoop_fuel_stable`); where the source loop can diverge or raise, the
  embedding returns `none` / an error value.
-/

namespace Transport

abbrev Station := Nat

/-- One directed hop between two consecutive stops (`class Leg`).  The Python
back-reference to the owning `Service` is replaced by passing the service's
leg list explicitly. -/
structure Leg where
  origin : Station
  destination : Station
deriving DecidableEq

/-- One booking (`class Passenger`): origin, destination, sale day offset and
price. -/
structure Passenger where
  origin : Station
  destination : Station
  sale_day_x : Int
  price : Int
deriving DecidableEq

/-- A data point `[day_x, cumulative count, cumulative revenue]` as produced
by `OD.history` and `OD.forecast`. -/
structure DataPoint where
  day : Int
  cnt : Int
  rev : Int
deriving DecidableEq

/-- `Service.day_x`: `(datetime.date.today() - self.departure_date).days`,
with dates modelled as epoch day numbers. -/
def dayX (today departure : Int) : Int :=
  today - departure

/-- The legs built by `Service.load_itinerary`: one leg per consecutive pair
of the given stop sequence. -/
def loadLegs : List Station → List Leg
  | a :: b :: rest => ⟨a, b⟩ :: loadLegs (b :: rest)
  | _ => []

/-- The ODs built by `Service.load_itinerary`: one ordered pair `(i, j)` for
every `i < j` over the stop sequence, in the source's enumeration order. -/
def loadODs : List Station → List (Station × Station)
  | a :: rest => rest.map (fun b => (a, b)) ++ loadODs rest
  | [] => []

/-! ### `Service.itinerary` (source lines 28-51) -/

def legOrigins (legs : List Leg) : List Station :=
  legs.map (·.origin)

def legDestinations (legs : List Leg) : List Station :=
  legs.map (·.destination)

/-- First loop of `Service.itinerary`: every origin station that does not
appear among the destinations. -/
def itinerarySources (legs : List Leg) : List Station :=
  (legOrigins legs).filter (fun s => decide (s ∉ legDestinations legs))

/-- One pass of the body of the `while` loop of `Service.itinerary`: scan all
legs in order, appending a leg's destination whenever its origin equals the
current last station (the last station is re-read after every append, exactly
as `itinerary[-1]` is in the source). -/
def itinPass (legs : List Leg) (acc : List Station) : List Station :=
  legs.foldl
    (fun acc leg =>
      if acc.getLast? = some leg.origin then acc ++ [leg.destination] else acc)
    acc

/-- The `while itinerary[-1] in origins` loop of `Service.itinerary`.  `none`
models the two non-returning behaviours of the source: the `IndexError` raised
by `itinerary[-1]` on an empty list (no source station), and divergence (fuel
exhaustion). -/
def itinWhile (legs : List Leg) : Nat → List Station → Option (List Station)
  | 0, _ => none
  | fuel + 1, acc =>
    match acc.getLast? with
    | none => none
    | some s =>
        if s ∈ legOrigins legs then itinWhile legs fuel (itinPass legs acc)
        else some acc

/-- `Service.itinerary`.  Every terminating run of the source loop makes at
most `legs.length` passes (pass behaviour is a function of the current last
station, and a repeated last station repeats forever), so fuel
`legs.length + 2` is sufficient for every terminating source run. -/
def serviceItinerary (legs : List Leg) : Option (List Station) :=
  itinWhile legs (legs.length + 2) (itinerarySources legs)

/-! ### `OD.legs` (source lines 129-151) -/

/-- First loop of `OD.legs`: for every itinerary station equal to the OD's
origin, append every leg departing from it. -/
def odFirst (itin : List Station) (legs : List Leg) (origin : Station) : List Leg :=
  itin.foldl
    (fun acc s =>
      if s = origin then acc ++ legs.filter (fun l => decide (l.origin = s)) else acc)
    []

/-- One pass of the body of the `while` loop of `OD.legs`: scan the itinerary,
and whenever a station equals the destination of the current last leg
(re-read after every append, as `legs[-1]` is in the source), append every leg
departing from that station. -/
def odPass (itin : List Station) (legs : List Leg) (acc : List Leg) : List Leg :=
  itin.foldl
    (fun acc s =>
      match acc.getLast? with
      | none => acc
      | some lst =>
          if s = lst.destination then acc ++ legs.filter (fun l => decide (l.origin = s))
          else acc)
    acc

/-- The `while legs[-1].destination != self.destination` loop of `OD.legs`.
`none` models the `IndexError` raised by `legs[-1]` on an empty list (origin
not found) and divergence (fuel exhaustion). -/
def odLegsWhile (itin : List Station) (legs : List Leg) (dest : Station) :
    Nat → List Leg → Option (List Leg)
  | 0, _ => none
  | fuel + 1, acc =>
    match acc.getLast? with
    | none => none
    | some lst =>
        if lst.destination = dest then some acc
        else odLegsWhile itin legs dest fuel (odPass itin legs acc)

/-- `OD.legs` for an OD `(origin, dest)` of a service with leg list `legs` and
resolved itinerary `itin`. -/
def odLegs (itin : List Station) (legs : List Leg) (origin dest : Station) :
    Option (List Leg) :=
  odLegsWhile itin legs dest (legs.length + 2) (odFirst itin legs origin)

/-! ### `OD.history` (source lines 153-181) -/

/-- The ordering by sale day used by `sorted(self.passengers, key=...)`. -/
def saleLE (a b : Passenger) : Prop :=
  a.sale_day_x ≤ b.sale_day_x

instance : DecidableRel saleLE := fun _ _ => Int.decLe _ _

instance : IsTotal Passenger saleLE :=
  ⟨fun a b => Int.le_total a.sale_day_x b.sale_day_x⟩

instance : IsTrans Passenger saleLE :=
  ⟨fun x _ _ h h' => le_trans (a := x.sale_day_x) h h'⟩

/-- The auxiliary `update_history` of `OD.history`: the first passenger opens
the history, a passenger on the last point's day updates that point in place,
and a later day appends a new cumulative point. -/
def update_history (history : List DataPoint) (p : Passenger) : List DataPoint :=
  match history.getLast? with
  | none => [⟨p.sale_day_x, 1, p.price⟩]
  | some old =>
      if p.sale_day_x = old.day then
        history.dropLast ++ [⟨p.sale_day_x, old.cnt + 1, old.rev + p.price⟩]
      else
        history ++ [⟨p.sale_day_x, old.cnt + 1, old.rev + p.price⟩]

/-- `OD.history()`: fold `update_history` over the passengers sorted by sale
day offset. -/
def history (pax : List Passenger) : List DataPoint :=
  (List.insertionSort saleLE pax).foldl update_history []

/-! ### Association-list primitives for the Python dicts of `OD.forecast` -/

/-- `m[key]`, with a default for an absent key (Python would raise `KeyError`;
every claim about `forecast` guarantees presence of the keys that are read). -/
def lookupD {α β : Type} [DecidableEq α] (m : List (α × β)) (key : α) (dflt : β) : β :=
  match m with
  | [] => dflt
  | (k, v) :: rest => if k = key then v else lookupD rest key dflt

/-- In-place update `m[key] = f m[key]` of the first entry with the given key
(a Python dict has exactly one). -/
def modKey {α β : Type} [DecidableEq α] (f : β → β) : List (α × β) → α → List (α × β)
  | [], _ => []
  | (k, v) :: rest, key =>
      if k = key then (k, f v) :: rest else (k, v) :: modKey f rest key

/-- `pricing`: price → remaining seats. -/
abbrev Pricing := List (Int × Int)

/-- One day's row of the demand matrix: price → unconstrained demand. -/
abbrev DemandRow := List (Int × Int)

/-- `demand_matrix`: day offset → demand row. -/
abbrev DemandMatrix := List (Int × DemandRow)

/-- `demand_matrix[day][price]`. -/
def demandAt (dm : DemandMatrix) (day price : Int) : Int :=
  lookupD (lookupD dm day []) price 0

/-! ### `OD.forecast` (source lines 183-219) -/

/-- The running state of the forecast simulation: the current point's
cumulative count and revenue, and the mutated `pricing` and `demand_matrix`. -/
structure FState where
  cnt : Int
  rev : Int
  pricing : Pricing
  dm : DemandMatrix
deriving DecidableEq

/-- The guard of the inner `while` loop:
`demand_matrix[day][price] > 0 and pricing[price] > 0`. -/
def sellGuard (day price : Int) (st : FState) : Prop :=
  0 < demandAt st.dm day price ∧ 0 < lookupD st.pricing price 0

instance (day price : Int) (st : FState) : Decidable (sellGuard day price st) :=
  instDecidableAnd

/-- The cascade loop: for every price in `prices` that is `≥ price` and has
positive demand on `day`, decrement that demand by one (each condition is read
from the matrix as already mutated by the earlier iterations, exactly as in
the source). -/
def cascade (prices : List Int) (price day : Int) (dm : DemandMatrix) : DemandMatrix :=
  prices.foldl
    (fun dm up =>
      if price ≤ up ∧ 0 < demandAt dm day up then
        modKey (fun row => modKey (fun v => v - 1) row up) dm day
      else dm)
    dm

/-- One iteration of the body of the inner `while` loop: sell one seat at
`price` (count + 1, revenue + price, `pricing[price] -= 1`) and run the
cascade. -/
def sellStep (prices : List Int) (price day : Int) (st : FState) : FState :=
  { cnt := st.cnt + 1
    rev := st.rev + price
    pricing := modKey (fun v => v - 1) st.pricing price
    dm := cascade prices price day st.dm }

/-- The inner `while` loop, fuel-indexed.  Each iteration decrements
`pricing[price]` by one while the guard keeps it positive, so a fuel of
`pricing[price].toNat` is provably sufficient (`sellLoop_fuel_stable`). -/
def sellLoop (prices : List Int) (price day : Int) : Nat → FState → FState
  | 0, st => st
  | fuel + 1, st =>
      if sellGuard day price st then
        sellLoop prices price day fuel (sellStep prices price day st)
      else st

/-- The inner `while` loop run to completion. -/
def sellWhile (prices : List Int) (price day : Int) (st : FState) : FState :=
  sellLoop prices price day (lookupD st.pricing price 0).toNat st

/-- The `for price in prices` loop of one forecast day. -/
def dayRun (prices : List Int) (day : Int) (st : FState) : FState :=
  prices.foldl (fun st price => sellWhile prices price day st) st

/-- The stale-data message returned by the source
(`return "Error, the demand_matrix is not up to date"`). -/
def staleMsg : String :=
  "Error, the demand_matrix is not up to date"

/-- `OD.forecast(pricing, demand_matrix)` given the OD's already-computed
history.  Returns the forecast (or the stale-data error string, or an
`IndexError` marker when the demand matrix is empty and the source would raise
on `demand_days[0]`), together with the mutated `pricing` and `demand_matrix`.
The seed point priming the carry-forward is excluded (`del forecast[0]`). -/
def forecastRun (hist : List DataPoint) (pricing : Pricing) (dm : DemandMatrix) :
    Except String (List DataPoint) × Pricing × DemandMatrix :=
  let demandDays := List.insertionSort (· ≤ ·) (dm.map Prod.fst)
  let prices := List.insertionSort (· ≤ ·) (pricing.map Prod.fst)
  match demandDays with
  | [] => (Except.error "IndexError", pricing, dm)
  | d0 :: _ =>
      let lastData : DataPoint :=
        match hist.getLast? with
        | none => ⟨d0 - 1, 0, 0⟩
        | some p => p
      if d0 < lastData.day then (Except.error staleMsg, pricing, dm)
      else
        let res :=
          demandDays.foldl
            (fun (acc : List DataPoint × FState) day =>
              let st := dayRun prices day acc.2
              (acc.1 ++ [⟨day, st.cnt, st.rev⟩], st))
            ([], ⟨lastData.cnt, lastData.rev, pricing, dm⟩)
        (Except.ok res.1, res.2.pricing, res.2.dm)

/-- `OD.forecast` of an OD holding the given passengers: the history is
computed by `OD.history()` first (source line 186). -/
def odForecast (pax : List Passenger) (pricing : Pricing) (dm : DemandMatrix) :
    Except String (List DataPoint) × Pricing × DemandMatrix :=
  forecastRun (history pax) pricing dm

/-! ### Concrete data of the repository's demonstration scenario -/

/-- The four bookings allocated to the OD `ply → lpd` by the source's
demonstration manifest (`ply = 0`, `lpd = 1`). -/
def c2pax : List Passenger :=
  [⟨0, 1, -30, 20⟩, ⟨0, 1, -25, 30⟩, ⟨0, 1, -20, 40⟩, ⟨0, 1, -20, 40⟩]

/-- `pricing = {10: 0, 20: 2, 30: 5, 40: 5, 50: 5}` (source line 323). -/
def c2pricing : Pricing :=
  [(10, 0), (20, 2), (30, 5), (40, 5), (50, 5)]

/-- The 8-day demand matrix of the domain dataset (source lines 330-339). -/
def c2dm : DemandMatrix :=
  [ (-7, [(10, 5), (20, 1), (30, 0), (40, 0), (50, 0)]),
    (-6, [(10, 5), (20, 2), (30, 1), (40, 1), (50, 1)]),
    (-5, [(10, 5), (20, 4), (30, 3), (40, 2), (50, 1)]),
    (-4, [(10, 5), (20, 5), (30, 4), (40, 3), (50, 1)]),
    (-3, [(10, 5), (20, 5), (30, 5), (40, 3), (50, 2)]),
    (-2, [(10, 5), (20, 5), (30, 5), (40, 4), (50, 3)]),
    (-1, [(10, 5), (20, 5), (30, 5), (40, 5), (50, 4)]),
    (0,  [(10, 5), (20, 5), (30, 5), (40, 5), (50, 5)]) ]

/-! ### C2: the concrete forecast scenario -/

/-- C2: for an OD whose history is `[[-30,1,20],[-25,2,50],[-20,4,130]]`,
forecasting with `pricing = {10:0, 20:2, 30:5, 40:5, 50:5}` and the 8-day
demand matrix of the domain dataset returns exactly 8 points, the first being
`[-7, 5, 150]` and the last `[0, 21, 770]`. -/
theorem forecast_concrete_C2 :
    history c2pax = [⟨-30, 1, 20⟩, ⟨-25, 2, 50⟩, ⟨-20, 4, 130⟩] ∧
    ∃ out, (odForecast c2pax c2pricing c2dm).1 = Except.ok out ∧
      out.length = 8 ∧ out.head? = some ⟨-7, 5, 150⟩ ∧
      out.getLast? = some ⟨0, 21, 770⟩ := by
  refine ⟨rfl, [⟨-7, 5, 150⟩, ⟨-6, 6, 170⟩, ⟨-5, 9, 260⟩, ⟨-4, 12, 360⟩,
    ⟨-3, 15, 480⟩, ⟨-2, 18, 620⟩, ⟨-1, 21, 770⟩, ⟨0, 21, 770⟩], rfl, rfl, rfl, rfl⟩

/-! ### C9: the sign of `Service.day_x` -/

/-- C9 counterexample: with today = 8 and departure = 7 (today is after the
departure), `Service.day_x` returns `1`, which is not negative — the claim
that `day_x` is the number of days from today to the departure date, negative
after departure, is false on the code. -/
theorem dayx_sign_C9_cex : dayX 8 7 = 1 ∧ ¬dayX 8 7 < 0 := by
  decide

/-- C9 amended: `Service.day_x` returns the number of days from the departure
date to today (`today - departure`), which is negative before departure, zero
on the departure day and positive after departure — the day-x convention. -/
theorem dayx_amended_C9 :
    ∀ today departure : Int,
      dayX today departure = today - departure ∧
      (dayX today departure < 0 ↔ today < departure) ∧
      (0 < dayX today departure ↔ departure < today) ∧
      (dayX today departure = 0 ↔ today = departure) := by
  intro t d
  refine ⟨rfl, ?_, ?_, ?_⟩ <;> unfold dayX <;> omega

/-! ### C5: `OD.legs` overshoots a non-final destination -/

/-- If a pass of the `OD.legs` while loop leaves the leg list unchanged and
its last leg does not end at the destination, the loop never terminates. -/
theorem odLegsWhile_none_of_fix (itin : List Station) (legs : List Leg)
    (dest : Station) (acc : List Leg) (l : Leg) (hl : acc.getLast? = some l)
    (hd : l.destination ≠ dest) (hfix : odPass itin legs acc = acc) :
    ∀ fuel, odLegsWhile itin legs dest fuel acc = none := by
  intro fuel
  induction fuel with
  | zero => rfl
  | succ n ih =>
      show odLegsWhile itin legs dest (n + 1) acc = none
      unfold odLegsWhile
      rw [hl]
      simp only [hd, if_false, hfix, ih]

/-- C5 (code bug): on the service built from the 4-stop itinerary
`[0, 1, 2, 3]`, the OD from stop `0` to stop `2` spans exactly the legs
`[⟨0,1⟩, ⟨1,2⟩]` according to the claim, but the source's `OD.legs` overshoots:
its first scan pass appends `⟨2,3⟩` past the destination and from then on the
loop makes no progress, so `OD.legs` never returns (modelled as `none` for
every fuel). -/
theorem odlegs_overshoot_C5 :
    serviceItinerary (loadLegs [0, 1, 2, 3]) = some [0, 1, 2, 3] ∧
    odFirst [0, 1, 2, 3] (loadLegs [0, 1, 2, 3]) 0 = [⟨0, 1⟩] ∧
    (∀ fuel, odLegsWhile [0, 1, 2, 3] (loadLegs [0, 1, 2, 3]) 2 fuel
        (odFirst [0, 1, 2, 3] (loadLegs [0, 1, 2, 3]) 0) = none) ∧
    odLegs [0, 1, 2, 3] (loadLegs [0, 1, 2, 3]) 0 2 = none := by
  have hfix : ∀ fuel, odLegsWhile [0, 1, 2, 3] (loadLegs [0, 1, 2, 3]) 2 fuel
      (odFirst [0, 1, 2, 3] (loadLegs [0, 1, 2, 3]) 0) = none := by
    intro fuel
    cases fuel with
    | zero => rfl
    | succ n =>
        show odLegsWhile [0, 1, 2, 3] (loadLegs [0, 1, 2, 3]) 2 (n + 1) [⟨0, 1⟩] = none
        unfold odLegsWhile
        simp only [List.getLast?]
        norm_num
        have hpass : odPass [0, 1, 2, 3] (loadLegs [0, 1, 2, 3]) [⟨0, 1⟩] =
            [⟨0, 1⟩, ⟨1, 2⟩, ⟨2, 3⟩] := rfl
        rw [hpass]
        exact odLegsWhile_none_of_fix [0, 1, 2, 3] (loadLegs [0, 1, 2, 3]) 2
          [⟨0, 1⟩, ⟨1, 2⟩, ⟨2, 3⟩] ⟨2, 3⟩ rfl (by decide) rfl n
  exact ⟨rfl, rfl, hfix, hfix _⟩

/-! ### C4: itinerary round-trip -/

theorem legOrigins_loadLegs : ∀ l : List Station, legOrigins (loadLegs l) = l.dropLast
  | [] => rfl
  | [_] => rfl
  | a :: b :: rest => by
      have ih := legOrigins_loadLegs (b :: rest)
      simp only [loadLegs, legOrigins, List.map_cons] at ih ⊢
      rw [List.dropLast_cons₂]
      exact congrArg (a :: ·) ih

theorem legDestinations_loadLegs : ∀ l : List Station,
    legDestinations (loadLegs l) = l.tail
  | [] => rfl
  | [_] => rfl
  | a :: b :: rest => by
      have ih := legDestinations_loadLegs (b :: rest)
      simp only [loadLegs, legDestinations, List.map_cons] at ih ⊢
      rw [List.tail_cons] at ih ⊢
      exact congrArg (b :: ·) ih

theorem length_loadLegs : ∀ l : List Station, (loadLegs l).length = l.length - 1
  | [] => rfl
  | [_] => rfl
  | a :: b :: rest => by
      have ih := length_loadLegs (b :: rest)
      simp only [loadLegs, List.length_cons] at ih ⊢
      omega

/-- One pass of the `Service.itinerary` while loop consumes the whole chain of
consecutive legs when the current last station is the chain's first stop. -/
theorem itinPass_loadLegs :
    ∀ (l : List Station) (c : Station) (acc : List Station),
      itinPass (loadLegs (c :: l)) (acc ++ [c]) = acc ++ c :: l := by
  intro l
  induction l with
  | nil => intro c acc; rfl
  | cons b rest ih =>
      intro c acc
      show itinPass (⟨c, b⟩ :: loadLegs (b :: rest)) (acc ++ [c]) = _
      unfold itinPass
      rw [List.foldl_cons]
      simp only [List.getLast?_concat, if_pos rfl]
      have step := ih b (acc ++ [c])
      unfold itinPass at step
      rw [List.append_assoc] at step
      simpa using step

/-- For a duplicate-free itinerary of at least two stops, the first loop of
`Service.itinerary` finds exactly the first stop. -/
theorem itinerarySources_loadLegs (s0 b : Station) (rest : List Station)
    (hnd : (s0 :: b :: rest).Nodup) :
    itinerarySources (loadLegs (s0 :: b :: rest)) = [s0] := by
  unfold itinerarySources
  rw [legOrigins_loadLegs, legDestinations_loadLegs, List.tail_cons,
    List.dropLast_cons₂]
  have hs0 : s0 ∉ b :: rest := by
    intro h
    exact (List.nodup_cons.mp hnd).1 h
  rw [List.filter_cons_of_pos (by simpa using hs0)]
  have hrest : List.filter (fun s => decide (s ∉ b :: rest)) (b :: rest).dropLast = [] := by
    rw [List.filter_eq_nil_iff]
    intro a ha
    have hmem : a ∈ b :: rest := List.mem_of_mem_dropLast ha
    simp only [decide_eq_true_eq]
    exact fun hc => hc hmem
  rw [hrest]

/-- Unfolding lemma for one iteration of the `Service.itinerary` while loop
when the current itinerary's last station is known. -/
theorem itinWhile_succ_of_last (legs : List Leg) (fuel : Nat)
    (acc : List Station) (s : Station) (h : acc.getLast? = some s) :
    itinWhile legs (fuel + 1) acc =
      if s ∈ legOrigins legs then itinWhile legs fuel (itinPass legs acc)
      else some acc := by
  have e : itinWhile legs (fuel + 1) acc =
      match acc.getLast? with
      | none => none
      | some s =>
          if s ∈ legOrigins legs then itinWhile legs fuel (itinPass legs acc)
          else some acc := rfl
  rw [e, h]

theorem getLast_not_mem_dropLast (l : List Station) (h : l ≠ []) (hnd : l.Nodup) :
    l.getLast h ∉ l.dropLast := by
  intro hmem
  have hdecomp := List.dropLast_append_getLast h
  rw [← hdecomp] at hnd
  rcases List.nodup_append.mp hnd with ⟨-, -, hdisj⟩
  exact hdisj hmem (by simp)

/-- C4: for every itinerary of at least two pairwise-distinct stops, loading
it with `Service.load_itinerary` and reading it back through the
`Service.itinerary` property returns exactly the original stop sequence. -/
theorem itinerary_roundtrip_C4 (stops : List Station) (hnd : stops.Nodup)
    (hlen : 2 ≤ stops.length) :
    serviceItinerary (loadLegs stops) = some stops := by
  obtain ⟨s0, b, rest, rfl⟩ : ∃ s0 b rest, stops = s0 :: b :: rest := by
    match stops, hlen with
    | s0 :: b :: rest, _ => exact ⟨s0, b, rest, rfl⟩
  unfold serviceItinerary
  rw [itinerarySources_loadLegs s0 b rest hnd]
  have hmem : s0 ∈ legOrigins (loadLegs (s0 :: b :: rest)) := by
    rw [legOrigins_loadLegs, List.dropLast_cons₂]
    exact List.mem_cons_self _ _
  have hfuel : (loadLegs (s0 :: b :: rest)).length + 2 =
      ((loadLegs (s0 :: b :: rest)).length + 1) + 1 := rfl
  rw [hfuel, itinWhile_succ_of_last (loadLegs (s0 :: b :: rest))
    ((loadLegs (s0 :: b :: rest)).length + 1) [s0] s0 rfl, if_pos hmem]
  have hpass : itinPass (loadLegs (s0 :: b :: rest)) [s0] = s0 :: b :: rest := by
    have := itinPass_loadLegs (b :: rest) s0 []
    simpa using this
  rw [hpass]
  have hne : (s0 :: b :: rest) ≠ ([] : List Station) := by simp
  have hnot : (s0 :: b :: rest).getLast hne ∉ legOrigins (loadLegs (s0 :: b :: rest)) := by
    rw [legOrigins_loadLegs]
    exact getLast_not_mem_dropLast _ hne hnd
  rw [itinWhile_succ_of_last _ _ _ _ (List.getLast?_eq_getLast _ hne), if_neg hnot]

/-- C4 witness: the concrete three-stop itinerary of the demonstration
scenario round-trips. -/
theorem itinerary_roundtrip_C4_witness :
    ([0, 1, 2] : List Station).Nodup ∧ 2 ≤ ([0, 1, 2] : List Station).length ∧
    serviceItinerary (loadLegs [0, 1, 2]) = some [0, 1, 2] :=
  ⟨by decide, by decide, itinerary_roundtrip_C4 [0, 1, 2] (by decide) (by decide)⟩

/-! ### C8: the history aggregation -/

/-- Number of bookings whose sale day offset is at most `d`. -/
def countUpTo (pax : List Passenger) (d : Int) : Int :=
  ((pax.filter (fun p => decide (p.sale_day_x ≤ d))).length : Int)

/-- Total price of the bookings whose sale day offset is at most `d`. -/
def revUpTo (pax : List Passenger) (d : Int) : Int :=
  ((pax.filter (fun p => decide (p.sale_day_x ≤ d))).map (·.price)).sum

theorem countUpTo_append (l : List Passenger) (p : Passenger) (d : Int) :
    countUpTo (l ++ [p]) d =
      countUpTo l d + (if p.sale_day_x ≤ d then 1 else 0) := by
  unfold countUpTo
  rw [List.filter_append]
  by_cases h : p.sale_day_x ≤ d <;> simp [h]

theorem revUpTo_append (l : List Passenger) (p : Passenger) (d : Int) :
    revUpTo (l ++ [p]) d =
      revUpTo l d + (if p.sale_day_x ≤ d then p.price else 0) := by
  unfold revUpTo
  rw [List.filter_append]
  by_cases h : p.sale_day_x ≤ d <;> simp [h]

theorem filter_upTo_eq_self (l : List Passenger) (d : Int)
    (hd : ∀ a ∈ l, a.sale_day_x ≤ d) :
    l.filter (fun p => decide (p.sale_day_x ≤ d)) = l := by
  rw [List.filter_eq_self]
  intro a ha
  simpa using hd a ha

/-- In a `Pairwise r` list, every element is the last one or is `r`-related to
it. -/
theorem mem_rel_getLast {α : Type} {r : α → α → Prop} (l : List α)
    (hp : l.Pairwise r) (hne : l ≠ []) (x : α) (hx : x ∈ l) :
    x = l.getLast hne ∨ r x (l.getLast hne) := by
  have hd := List.dropLast_append_getLast hne
  rw [← hd] at hp hx
  rcases List.mem_append.mp hx with h1 | h2
  · right
    rcases List.pairwise_append.mp hp with ⟨-, -, hrel⟩
    exact hrel x h1 _ (by simp)
  · left
    simpa using h2

theorem update_history_nil (p : Passenger) :
    update_history [] p = [⟨p.sale_day_x, 1, p.price⟩] := rfl

theorem update_history_concat (H₀ : List DataPoint) (old : DataPoint)
    (p : Passenger) :
    update_history (H₀ ++ [old]) p =
      if p.sale_day_x = old.day then
        H₀ ++ [⟨p.sale_day_x, old.cnt + 1, old.rev + p.price⟩]
      else (H₀ ++ [old]) ++ [⟨p.sale_day_x, old.cnt + 1, old.rev + p.price⟩] := by
  unfold update_history
  rw [List.getLast?_concat]
  by_cases h : p.sale_day_x = old.day
  · simp [h, List.dropLast_concat]
  · simp [h]

/-- Invariant of the `OD.history` fold: folding `update_history` over a
day-sorted passenger list produces a strictly day-sorted list of cumulative
points, one per distinct sale day, whose counts and revenues aggregate all
passengers sold up to each point's day. -/
theorem hist_fold_spec :
    ∀ l : List Passenger, l.Pairwise saleLE →
      ((l.foldl update_history []).map (·.day)).Pairwise (· < ·) ∧
      (l.foldl update_history []).getLast?.map (·.day) =
        l.getLast?.map (·.sale_day_x) ∧
      (∀ d : Int, d ∈ (l.foldl update_history []).map (·.day) ↔
        d ∈ l.map (·.sale_day_x)) ∧
      (∀ pt ∈ l.foldl update_history [],
        pt.cnt = countUpTo l pt.day ∧ pt.rev = revUpTo l pt.day) ∧
      (l.foldl update_history [] = [] ↔ l = []) := by
  intro l
  induction l using List.reverseRecOn with
  | nil =>
      intro _
      exact ⟨by simp, by simp, by simp, by simp, by simp⟩
  | append_singleton l p ih =>
      intro hs
      rcases List.pairwise_append.mp hs with ⟨hl, -, hrel⟩
      have hle : ∀ a ∈ l, a.sale_day_x ≤ p.sale_day_x := fun a ha =>
        hrel a ha p (List.mem_singleton_self p)
      obtain ⟨hsorted, hlastday, hmem, hcounts, hempty⟩ := ih hl
      have hfold : (l ++ [p]).foldl update_history [] =
          update_history (l.foldl update_history []) p := by
        rw [List.foldl_append]
        rfl
      rcases List.eq_nil_or_concat (l.foldl update_history []) with hH | ⟨H₀, old, hH⟩
      · -- empty history so far: the new passenger opens it
        have hlnil : l = [] := hempty.mp hH
        subst hlnil
        rw [hfold, hH, update_history_nil]
        refine ⟨by simp, by simp, by simp, ?_, by simp⟩
        intro pt hpt
        rw [List.mem_singleton] at hpt
        subst hpt
        constructor <;> simp [countUpTo, revUpTo]
      · rw [List.concat_eq_append] at hH
        have holdmem : old ∈ l.foldl update_history [] := by
          rw [hH]; simp
        have hlne : l ≠ [] := by
          intro h
          have : l.foldl update_history [] = [] := hempty.mpr h
          rw [hH] at this
          simp at this
        have hlastold : (l.foldl update_history []).getLast? = some old := by
          rw [hH]; exact List.getLast?_concat _
        have hgl : l.getLast? = some (l.getLast hlne) :=
          List.getLast?_eq_getLast _ hlne
        have holdday : old.day = (l.getLast hlne).sale_day_x := by
          have h := hlastday
          rw [hlastold, hgl] at h
          simpa using h
        have hall_le_old : ∀ a ∈ l, a.sale_day_x ≤ old.day := by
          intro a ha
          rcases mem_rel_getLast l hl hlne a ha with h | h
          · rw [holdday, h]
          · rw [holdday]; exact h
        have hole : old.day ≤ p.sale_day_x := by
          rw [holdday]; exact hle _ (List.getLast_mem hlne)
        have hfilt_old : countUpTo l old.day = (l.length : Int) := by
          unfold countUpTo
          rw [filter_upTo_eq_self l old.day hall_le_old]
        have hrev_old : revUpTo l old.day = (l.map (·.price)).sum := by
          unfold revUpTo
          rw [filter_upTo_eq_self l old.day hall_le_old]
        have hfilt_p : countUpTo l p.sale_day_x = (l.length : Int) := by
          unfold countUpTo
          rw [filter_upTo_eq_self l p.sale_day_x hle]
        have hrev_p : revUpTo l p.sale_day_x = (l.map (·.price)).sum := by
          unfold revUpTo
          rw [filter_upTo_eq_self l p.sale_day_x hle]
        have holdcnt := (hcounts old holdmem).1
        have holdrev := (hcounts old holdmem).2
        have hdays : (l.foldl update_history []).map (·.day) =
            H₀.map (·.day) ++ [old.day] := by
          rw [hH]; simp
        have hd_pair := hsorted
        rw [hdays] at hd_pair
        rcases List.pairwise_append.mp hd_pair with ⟨hpair₀, -, hrel₀⟩
        have hptlt : ∀ d ∈ H₀.map (·.day), d < old.day := fun d hd =>
          hrel₀ d hd _ (List.mem_singleton_self _)
        have hdays_le : ∀ pt ∈ l.foldl update_history [], pt.day ≤ old.day := by
          intro pt hpt
          rw [hH] at hpt
          rcases List.mem_append.mp hpt with h | h
          · exact le_of_lt (hptlt pt.day (List.mem_map_of_mem _ h))
          · rw [List.mem_singleton] at h
            rw [h]
        by_cases hpd : p.sale_day_x = old.day
        · -- same day: the last point is replaced
          have hupdate : (l ++ [p]).foldl update_history [] =
              H₀ ++ [⟨p.sale_day_x, old.cnt + 1, old.rev + p.price⟩] := by
            rw [hfold, hH, update_history_concat, if_pos hpd]
          refine ⟨?_, ?_, ?_, ?_, ?_⟩
          · rw [hupdate]
            simp only [List.map_append, List.map_cons, List.map_nil]
            refine List.pairwise_append.mpr ⟨hpair₀, by simp, ?_⟩
            intro d hd b hb
            rw [List.mem_singleton] at hb
            subst hb
            show d < p.sale_day_x
            rw [hpd]
            exact hptlt d hd
          · rw [hupdate, List.getLast?_concat, List.getLast?_concat]
            rfl
          · intro d
            rw [hupdate]
            simp only [List.map_append, List.map_cons, List.map_nil,
              List.mem_append, List.mem_singleton]
            have base := hmem d
            rw [hdays] at base
            simp only [List.mem_append, List.mem_singleton] at base
            have holdin : old.day ∈ l.map (·.sale_day_x) := by
              have base2 := hmem old.day
              rw [hdays] at base2
              exact base2.mp (by simp)
            constructor
            · rintro (h | h)
              · exact Or.inl (base.mp (Or.inl h))
              · subst h
                rw [hpd]
                exact Or.inl holdin
            · rintro (h | h)
              · rcases base.mpr h with h' | h'
                · exact Or.inl h'
                · subst h'
                  right
                  omega
              · right
                exact h
          · intro pt hpt
            rw [hupdate] at hpt
            rcases List.mem_append.mp hpt with h | h
            · have hin : pt ∈ l.foldl update_history [] := by
                rw [hH]; exact List.mem_append.mpr (Or.inl h)
              have hcnt := hcounts pt hin
              have hptday : pt.day < old.day :=
                hptlt pt.day (List.mem_map_of_mem _ h)
              have hnle : ¬p.sale_day_x ≤ pt.day := by omega
              constructor
              · rw [countUpTo_append, if_neg hnle, hcnt.1]
                ring
              · rw [revUpTo_append, if_neg hnle, hcnt.2]
                ring
            · rw [List.mem_singleton] at h
              subst h
              constructor
              · show old.cnt + 1 = countUpTo (l ++ [p]) p.sale_day_x
                rw [countUpTo_append, if_pos (le_refl _), hfilt_p, holdcnt,
                  hfilt_old]
              · show old.rev + p.price = revUpTo (l ++ [p]) p.sale_day_x
                rw [revUpTo_append, if_pos (le_refl _), hrev_p, holdrev,
                  hrev_old]
          · rw [hupdate]
            constructor
            · intro h; simp at h
            · intro h; simp at h
        · -- later day: a new point is appended
          have hlt : old.day < p.sale_day_x :=
            lt_of_le_of_ne hole (fun h => hpd h.symm)
          have hupdate : (l ++ [p]).foldl update_history [] =
              (H₀ ++ [old]) ++ [⟨p.sale_day_x, old.cnt + 1, old.rev + p.price⟩] := by
            rw [hfold, hH, update_history_concat, if_neg hpd]
          refine ⟨?_, ?_, ?_, ?_, ?_⟩
          · rw [hupdate]
            simp only [List.map_append, List.map_cons, List.map_nil]
            refine List.pairwise_append.mpr ⟨?_, by simp, ?_⟩
            · have := hd_pair
              simpa using this
            · intro d hd b hb
              rw [List.mem_singleton] at hb
              subst hb
              show d < p.sale_day_x
              simp only [List.mem_append, List.mem_singleton] at hd
              rcases hd with h | h
              · exact lt_trans (hptlt d h) hlt
              · rw [h]; exact hlt
          · rw [hupdate, List.getLast?_concat, List.getLast?_concat]
            rfl
          · intro d
            rw [hupdate]
            simp only [List.map_append, List.map_cons, List.map_nil,
              List.mem_append, List.mem_singleton]
            have base := hmem d
            rw [hdays] at base
            simp only [List.mem_append, List.mem_singleton] at base
            constructor
            · rintro ((h | h) | h)
              · exact Or.inl (base.mp (Or.inl h))
              · exact Or.inl (base.mp (Or.inr h))
              · exact Or.inr h
            · rintro (h | h)
              · rcases base.mpr h with h' | h'
                · exact Or.inl (Or.inl h')
                · exact Or.inl (Or.inr h')
              · exact Or.inr h
          · intro pt hpt
            rw [hupdate] at hpt
            rcases List.mem_append.mp hpt with h | h
            · have hin : pt ∈ l.foldl update_history [] := by
                rw [hH]; exact h
              have hcnt := hcounts pt hin
              have hptday : pt.day ≤ old.day := hdays_le pt hin
              have hnle : ¬p.sale_day_x ≤ pt.day := by omega
              constructor
              · rw [countUpTo_append, if_neg hnle, hcnt.1]
                ring
              · rw [revUpTo_append, if_neg hnle, hcnt.2]
                ring
            · rw [List.mem_singleton] at h
              subst h
              constructor
              · show old.cnt + 1 = countUpTo (l ++ [p]) p.sale_day_x
                rw [countUpTo_append, if_pos (le_refl _), hfilt_p, holdcnt,
                  hfilt_old]
              · show old.rev + p.price = revUpTo (l ++ [p]) p.sale_day_x
                rw [revUpTo_append, if_pos (le_refl _), hrev_p, holdrev,
                  hrev_old]
          · rw [hupdate]
            constructor
            · intro h; simp at h
            · intro h; simp at h

theorem countUpTo_mono (l : List Passenger) (d d' : Int) (h : d ≤ d') :
    countUpTo l d ≤ countUpTo l d' := by
  induction l with
  | nil => simp [countUpTo]
  | cons a l ih =>
      unfold countUpTo at ih ⊢
      by_cases ha : a.sale_day_x ≤ d
      · rw [List.filter_cons_of_pos (by simpa using ha),
          List.filter_cons_of_pos (by simpa using le_trans ha h)]
        simp only [List.length_cons]
        omega
      · rw [List.filter_cons_of_neg (by simpa using ha)]
        by_cases ha' : a.sale_day_x ≤ d'
        · rw [List.filter_cons_of_pos (by simpa using ha')]
          simp only [List.length_cons]
          omega
        · rw [List.filter_cons_of_neg (by simpa using ha')]
          exact ih

theorem revUpTo_mono (l : List Passenger) (hpos : ∀ p ∈ l, 0 ≤ p.price)
    (d d' : Int) (h : d ≤ d') : revUpTo l d ≤ revUpTo l d' := by
  induction l with
  | nil => simp [revUpTo]
  | cons a l ih =>
      have hpa : 0 ≤ a.price := hpos a (List.mem_cons_self a l)
      have hrest : ∀ p ∈ l, 0 ≤ p.price := fun p hp =>
        hpos p (List.mem_cons_of_mem a hp)
      have ih' := ih hrest
      unfold revUpTo at ih' ⊢
      by_cases ha : a.sale_day_x ≤ d
      · rw [List.filter_cons_of_pos (by simpa using ha),
          List.filter_cons_of_pos (by simpa using le_trans ha h)]
        simp only [List.map_cons, List.sum_cons]
        omega
      · rw [List.filter_cons_of_neg (by simpa using ha)]
        by_cases ha' : a.sale_day_x ≤ d'
        · rw [List.filter_cons_of_pos (by simpa using ha')]
          simp only [List.map_cons, List.sum_cons]
          omega
        · rw [List.filter_cons_of_neg (by simpa using ha')]
          exact ih'

theorem countUpTo_perm {l l' : List Passenger} (h : l.Perm l') (d : Int) :
    countUpTo l d = countUpTo l' d := by
  unfold countUpTo
  rw [(h.filter _).length_eq]

theorem revUpTo_perm {l l' : List Passenger} (h : l.Perm l') (d : Int) :
    revUpTo l d = revUpTo l' d := by
  unfold revUpTo
  exact ((h.filter _).map _).sum_eq

/-- C8: `OD.history()` returns one cumulative point per distinct sale day
offset of the OD's bookings, strictly ascending by day; each point's count and
revenue aggregate exactly the bookings sold up to that day; counts and
revenues are non-decreasing across points when prices are non-negative; and an
OD without bookings has an empty history. -/
theorem history_spec_C8 (pax : List Passenger)
    (hpos : ∀ p ∈ pax, 0 ≤ p.price) :
    (pax = [] → history pax = []) ∧
    ((history pax).map (·.day)).Pairwise (· < ·) ∧
    (∀ d : Int, d ∈ (history pax).map (·.day) ↔ d ∈ pax.map (·.sale_day_x)) ∧
    (∀ pt ∈ history pax,
      pt.cnt = countUpTo pax pt.day ∧ pt.rev = revUpTo pax pt.day) ∧
    (history pax).Pairwise (fun a b => a.cnt ≤ b.cnt ∧ a.rev ≤ b.rev) := by
  have hperm : (List.insertionSort saleLE pax).Perm pax :=
    List.perm_insertionSort saleLE pax
  have hsorted : (List.insertionSort saleLE pax).Pairwise saleLE :=
    List.sorted_insertionSort saleLE pax
  obtain ⟨hS, -, hM, hC, -⟩ := hist_fold_spec _ hsorted
  have hhist : history pax = (List.insertionSort saleLE pax).foldl update_history [] := rfl
  refine ⟨?_, ?_, ?_, ?_, ?_⟩
  · intro h
    subst h
    rfl
  · rw [hhist]
    exact hS
  · intro d
    rw [hhist]
    rw [hM d]
    exact (hperm.map _).mem_iff
  · intro pt hpt
    rw [hhist] at hpt
    obtain ⟨h1, h2⟩ := hC pt hpt
    exact ⟨h1.trans (countUpTo_perm hperm pt.day),
      h2.trans (revUpTo_perm hperm pt.day)⟩
  · rw [hhist]
    have hdaylt : (List.insertionSort saleLE pax).foldl update_history [] |>.Pairwise
        (fun a b => a.day < b.day) := List.pairwise_map.mp hS
    refine hdaylt.imp_of_mem ?_
    intro a b ha hb hab
    have hposs : ∀ p ∈ List.insertionSort saleLE pax, 0 ≤ p.price := by
      intro p hp
      exact hpos p (hperm.mem_iff.mp hp)
    obtain ⟨ha1, ha2⟩ := hC a ha
    obtain ⟨hb1, hb2⟩ := hC b hb
    constructor
    · rw [ha1, hb1]
      exact countUpTo_mono _ _ _ (le_of_lt hab)
    · rw [ha2, hb2]
      exact revUpTo_mono _ hposs _ _ (le_of_lt hab)

/-- C8 witness: the demonstration OD's four bookings have non-negative prices
and satisfy the history specification. -/
theorem history_spec_C8_witness :
    (∀ p ∈ c2pax, 0 ≤ p.price) ∧
    ((c2pax = [] → history c2pax = []) ∧
      ((history c2pax).map (·.day)).Pairwise (· < ·) ∧
      (∀ d : Int, d ∈ (history c2pax).map (·.day) ↔
        d ∈ c2pax.map (·.sale_day_x)) ∧
      (∀ pt ∈ history c2pax,
        pt.cnt = countUpTo c2pax pt.day ∧ pt.rev = revUpTo c2pax pt.day) ∧
      (history c2pax).Pairwise (fun a b => a.cnt ≤ b.cnt ∧ a.rev ≤ b.rev)) :=
  ⟨by decide, history_spec_C8 c2pax (by decide)⟩

/-! ### C3: the stale demand matrix check -/

/-- C3: `OD.forecast` returns the "out of date demand matrix" error exactly
when the OD's history is non-empty and the earliest day offset of the demand
matrix strictly precedes the day of the last history point; in that case
nothing is sold, and both `pricing` and `demand_matrix` are returned
completely unmodified. -/
theorem forecast_stale_C3 (pax : List Passenger) (pricing : Pricing)
    (dm : DemandMatrix) (hne : dm ≠ []) :
    ((odForecast pax pricing dm).1 = Except.error staleMsg ↔
      ∃ pt, (history pax).getLast? = some pt ∧
        ∃ m ∈ dm.map Prod.fst, (∀ d ∈ dm.map Prod.fst, m ≤ d) ∧ m < pt.day) ∧
    ((odForecast pax pricing dm).1 = Except.error staleMsg →
      (odForecast pax pricing dm).2.1 = pricing ∧
      (odForecast pax pricing dm).2.2 = dm) := by
  have hdperm : (List.insertionSort (· ≤ ·) (dm.map Prod.fst)).Perm
      (dm.map Prod.fst) := List.perm_insertionSort _ _
  have hdsorted : (List.insertionSort (· ≤ ·) (dm.map Prod.fst)).Sorted (· ≤ ·) :=
    List.sorted_insertionSort _ _
  have hdne : List.insertionSort (· ≤ ·) (dm.map Prod.fst) ≠ [] := by
    intro h
    apply hne
    have h2 : dm.map Prod.fst = [] := by
      have := hdperm
      rw [h] at this
      exact this.symm.eq_nil
    simpa using h2
  obtain ⟨d0, ds, hdsEq⟩ : ∃ d0 ds,
      List.insertionSort (· ≤ ·) (dm.map Prod.fst) = d0 :: ds := by
    cases h : List.insertionSort (· ≤ ·) (dm.map Prod.fst) with
    | nil => exact absurd h hdne
    | cons a l => exact ⟨a, l, rfl⟩
  have hd0mem : d0 ∈ dm.map Prod.fst := by
    apply hdperm.subset
    rw [hdsEq]
    exact List.mem_cons_self _ _
  have hd0min : ∀ d ∈ dm.map Prod.fst, d0 ≤ d := by
    intro d hd
    have hdmem : d ∈ List.insertionSort (· ≤ ·) (dm.map Prod.fst) :=
      hdperm.symm.subset hd
    rw [hdsEq] at hdmem
    rcases List.mem_cons.mp hdmem with h | h
    · rw [h]
    · rw [hdsEq] at hdsorted
      exact (List.pairwise_cons.mp hdsorted).1 d h
  unfold odForecast forecastRun
  rw [hdsEq]
  cases hh : (history pax).getLast? with
  | none =>
      simp only [hh]
      rw [if_neg (show ¬d0 < (⟨d0 - 1, 0, 0⟩ : DataPoint).day by
        show ¬d0 < d0 - 1
        omega)]
      constructor
      · simp
      · intro h
        simp at h
  | some pt =>
      simp only [hh]
      by_cases hc : d0 < pt.day
      · rw [if_pos hc]
        refine ⟨⟨fun _ => ⟨pt, rfl, d0, hd0mem, hd0min, hc⟩, fun _ => rfl⟩,
          fun _ => ⟨rfl, rfl⟩⟩
      · rw [if_neg hc]
        constructor
        · constructor
          · intro h
            simp at h
          · rintro ⟨pt', hpt', m, hm, hmin, hlt⟩
            injection hpt' with he
            subst he
            have := hd0min m hm
            omega
        · intro h
          simp at h

/-- C3 witness: a single booking sold on day -20 together with a demand matrix
whose only day is -25 triggers the stale-data error condition. -/
theorem forecast_stale_C3_witness :
    ([((-25 : Int), [((10 : Int), (1 : Int))])] ≠ ([] : DemandMatrix)) ∧
    (((odForecast [⟨0, 1, -20, 40⟩] [(10, 1)] [(-25, [(10, 1)])]).1 =
        Except.error staleMsg ↔
      ∃ pt, (history [⟨0, 1, -20, 40⟩]).getLast? = some pt ∧
        ∃ m ∈ ([((-25 : Int), [((10 : Int), (1 : Int))])] : DemandMatrix).map Prod.fst,
          (∀ d ∈ ([((-25 : Int), [((10 : Int), (1 : Int))])] : DemandMatrix).map Prod.fst,
            m ≤ d) ∧ m < pt.day) ∧
      ((odForecast [⟨0, 1, -20, 40⟩] [(10, 1)] [(-25, [(10, 1)])]).1 =
          Except.error staleMsg →
        (odForecast [⟨0, 1, -20, 40⟩] [(10, 1)] [(-25, [(10, 1)])]).2.1 =
          [(10, 1)] ∧
        (odForecast [⟨0, 1, -20, 40⟩] [(10, 1)] [(-25, [(10, 1)])]).2.2 =
          [(-25, [(10, 1)])])) :=
  ⟨by decide, forecast_stale_C3 [⟨0, 1, -20, 40⟩] [(10, 1)] [(-25, [(10, 1)])]
    (by decide)⟩

/-! ### Association-list lemmas -/

theorem lookupD_modKey_self {α β : Type} [DecidableEq α] (f : β → β)
    (m : List (α × β)) (k : α) (d : β) :
    lookupD (modKey f m k) k d =
      if k ∈ m.map Prod.fst then f (lookupD m k d) else d := by
  induction m with
  | nil => simp [modKey, lookupD]
  | cons a rest ih =>
      obtain ⟨k', v⟩ := a
      by_cases h : k' = k
      · subst h
        simp [modKey, lookupD]
      · have hne : ¬k = k' := fun hc => h hc.symm
        have hL : lookupD (modKey f ((k', v) :: rest) k) k d =
            lookupD (modKey f rest k) k d := by
          simp [modKey, lookupD, h]
        rw [hL, ih]
        by_cases hm : k ∈ List.map Prod.fst rest
        · rw [if_pos hm,
            if_pos (show k ∈ ((k', v) :: rest).map Prod.fst by simp [hm])]
          simp [lookupD, h]
        · rw [if_neg hm,
            if_neg (show k ∉ ((k', v) :: rest).map Prod.fst by simp [hne, hm])]

theorem lookupD_modKey_ne {α β : Type} [DecidableEq α] (f : β → β)
    (m : List (α × β)) (k k' : α) (d : β) (h : k' ≠ k) :
    lookupD (modKey f m k) k' d = lookupD m k' d := by
  induction m with
  | nil => rfl
  | cons a rest ih =>
      obtain ⟨k₀, v⟩ := a
      by_cases h0 : k₀ = k
      · subst h0
        have : ¬k₀ = k' := fun hc => h (hc.symm)
        simp [modKey, lookupD, this]
      · simp only [modKey, if_neg h0, lookupD]
        by_cases h1 : k₀ = k'
        · simp [h1]
        · simp [h1, ih]

theorem keys_modKey {α β : Type} [DecidableEq α] (f : β → β)
    (m : List (α × β)) (k : α) :
    (modKey f m k).map Prod.fst = m.map Prod.fst := by
  induction m with
  | nil => rfl
  | cons a rest ih =>
      obtain ⟨k₀, v⟩ := a
      by_cases h : k₀ = k
      · simp [modKey, h]
      · simp [modKey, h, ih]

theorem mem_of_lookupD_pos {α : Type} [DecidableEq α] (m : List (α × Int))
    (k : α) (h : 0 < lookupD m k 0) : k ∈ m.map Prod.fst := by
  induction m with
  | nil => simp [lookupD] at h
  | cons a rest ih =>
      obtain ⟨k₀, v⟩ := a
      by_cases h0 : k₀ = k
      · simp [h0]
      · simp only [lookupD, if_neg h0] at h
        simp [ih h]

theorem modKey_dec_nonneg {α : Type} [DecidableEq α] (m : List (α × Int))
    (k : α) (hpos : 0 < lookupD m k 0) (hnn : ∀ e ∈ m, 0 ≤ e.2) :
    ∀ e ∈ modKey (fun v => v - 1) m k, 0 ≤ e.2 := by
  induction m with
  | nil => simp [modKey]
  | cons a rest ih =>
      obtain ⟨k₀, v⟩ := a
      by_cases h0 : k₀ = k
      · subst h0
        simp only [lookupD, if_pos] at hpos
        intro e he
        simp only [modKey, if_pos, List.mem_cons] at he
        rcases he with he | he
        · subst he
          show 0 ≤ v - 1
          omega
        · exact hnn e (List.mem_cons_of_mem _ he)
      · intro e he
        simp only [modKey, if_neg h0, List.mem_cons] at he
        rcases he with he | he
        · subst he
          exact hnn _ (List.mem_cons_self _ _)
        · simp only [lookupD, if_neg h0] at hpos
          exact ih hpos (fun x hx => hnn x (List.mem_cons_of_mem _ hx)) e he

/-! ### Fuel adequacy of the inner while loop -/

theorem sellStep_pricing_lookup (prices : List Int) (price day : Int)
    (st : FState) (hg : sellGuard day price st) :
    lookupD (sellStep prices price day st).pricing price 0 =
      lookupD st.pricing price 0 - 1 := by
  show lookupD (modKey (fun v => v - 1) st.pricing price) price 0 =
    lookupD st.pricing price 0 - 1
  rw [lookupD_modKey_self, if_pos (mem_of_lookupD_pos _ _ hg.2)]

/-- Unfolding equation for one iteration of the inner while loop. -/
theorem sellLoop_succ (prices : List Int) (price day : Int) (fuel : Nat)
    (st : FState) :
    sellLoop prices price day (fuel + 1) st =
      if sellGuard day price st then
        sellLoop prices price day fuel (sellStep prices price day st)
      else st := rfl

/-- One unit of fuel beyond `pricing[price].toNat` never changes the result of
the inner while loop: the loop provably terminates within that bound, so the
fuel used by `sellWhile` is sufficient. -/
theorem sellLoop_fuel_stable (prices : List Int) (price day : Int) :
    ∀ n (st : FState), (lookupD st.pricing price 0).toNat ≤ n →
      sellLoop prices price day (n + 1) st = sellLoop prices price day n st := by
  intro n
  induction n with
  | zero =>
      intro st h
      have hg : ¬sellGuard day price st := by
        intro hg
        have := hg.2
        omega
      show sellLoop prices price day 1 st = sellLoop prices price day 0 st
      rw [sellLoop_succ, if_neg hg]
      rfl
  | succ n ih =>
      intro st h
      by_cases hg : sellGuard day price st
      · have h1 : sellLoop prices price day (n + 1 + 1) st =
            sellLoop prices price day (n + 1) (sellStep prices price day st) := by
          rw [sellLoop_succ, if_pos hg]
        have h2 : sellLoop prices price day (n + 1) st =
            sellLoop prices price day n (sellStep prices price day st) := by
          rw [sellLoop_succ, if_pos hg]
        rw [h1, h2]
        apply ih
        rw [sellStep_pricing_lookup prices price day st hg]
        omega
      · rw [sellLoop_succ, if_neg hg, sellLoop_succ, if_neg hg]

/-- Any fuel at least `pricing[price].toNat` computes the full while loop. -/
theorem sellLoop_eq_sellWhile (prices : List Int) (price day : Int)
    (st : FState) (n : Nat) (h : (lookupD st.pricing price 0).toNat ≤ n) :
    sellLoop prices price day n st = sellWhile prices price day st := by
  induction n with
  | zero =>
      unfold sellWhile
      rw [show (lookupD st.pricing price 0).toNat = 0 by omega]
  | succ n ih =>
      by_cases hb : (lookupD st.pricing price 0).toNat ≤ n
      · rw [sellLoop_fuel_stable prices price day n st hb]
        exact ih hb
      · unfold sellWhile
        rw [show (lookupD st.pricing price 0).toNat = n + 1 by omega]

/-! ### C10: non-negativity of seats and demand is preserved -/

theorem modKey_row_nonneg (dm : DemandMatrix) (day up : Int)
    (hpos : 0 < lookupD (lookupD dm day []) up 0)
    (hnn : ∀ e ∈ dm, ∀ x ∈ e.2, 0 ≤ x.2) :
    ∀ e ∈ modKey (fun row => modKey (fun v => v - 1) row up) dm day,
      ∀ x ∈ e.2, 0 ≤ x.2 := by
  induction dm with
  | nil => simp [modKey]
  | cons a rest ih =>
      obtain ⟨d, r⟩ := a
      by_cases h0 : d = day
      · subst h0
        simp only [lookupD, if_pos] at hpos
        intro e he
        simp only [modKey, if_pos, List.mem_cons] at he
        rcases he with he | he
        · subst he
          exact modKey_dec_nonneg r up hpos
            (fun x hx => hnn _ (List.mem_cons_self _ _) x hx)
        · exact hnn e (List.mem_cons_of_mem _ he)
      · intro e he
        simp only [modKey, if_neg h0, List.mem_cons] at he
        rcases he with he | he
        · subst he
          exact hnn _ (List.mem_cons_self _ _)
        · simp only [lookupD, if_neg h0] at hpos
          exact ih hpos (fun x hx => hnn x (List.mem_cons_of_mem _ hx)) e he

theorem cascade_nonneg (prices : List Int) (price day : Int) :
    ∀ dm : DemandMatrix, (∀ e ∈ dm, ∀ x ∈ e.2, 0 ≤ x.2) →
      ∀ e ∈ cascade prices price day dm, ∀ x ∈ e.2, 0 ≤ x.2 := by
  induction prices with
  | nil => intro dm hnn; simpa [cascade] using hnn
  | cons up rest ih =>
      intro dm hnn
      show ∀ e ∈ cascade rest price day
        (if price ≤ up ∧ 0 < demandAt dm day up then
          modKey (fun row => modKey (fun v => v - 1) row up) dm day
        else dm), ∀ x ∈ e.2, 0 ≤ x.2
      by_cases h : price ≤ up ∧ 0 < demandAt dm day up
      · rw [if_pos h]
        exact ih _ (modKey_row_nonneg dm day up h.2 hnn)
      · rw [if_neg h]
        exact ih _ hnn

theorem sellStep_nonneg (prices : List Int) (price day : Int) (st : FState)
    (hg : sellGuard day price st)
    (hp : ∀ e ∈ st.pricing, 0 ≤ e.2) (hd : ∀ e ∈ st.dm, ∀ x ∈ e.2, 0 ≤ x.2) :
    (∀ e ∈ (sellStep prices price day st).pricing, 0 ≤ e.2) ∧
    (∀ e ∈ (sellStep prices price day st).dm, ∀ x ∈ e.2, 0 ≤ x.2) :=
  ⟨modKey_dec_nonneg st.pricing price hg.2 hp,
    cascade_nonneg prices price day st.dm hd⟩

theorem sellLoop_nonneg (prices : List Int) (price day : Int) :
    ∀ (n : Nat) (st : FState), (∀ e ∈ st.pricing, 0 ≤ e.2) →
      (∀ e ∈ st.dm, ∀ x ∈ e.2, 0 ≤ x.2) →
      (∀ e ∈ (sellLoop prices price day n st).pricing, 0 ≤ e.2) ∧
      (∀ e ∈ (sellLoop prices price day n st).dm, ∀ x ∈ e.2, 0 ≤ x.2) := by
  intro n
  induction n with
  | zero => intro st hp hd; exact ⟨hp, hd⟩
  | succ n ih =>
      intro st hp hd
      rw [sellLoop_succ]
      by_cases hg : sellGuard day price st
      · rw [if_pos hg]
        obtain ⟨hp', hd'⟩ := sellStep_nonneg prices price day st hg hp hd
        exact ih _ hp' hd'
      · rw [if_neg hg]
        exact ⟨hp, hd⟩

theorem dayRun_nonneg (prices' : List Int) (day : Int) :
    ∀ (prices : List Int) (st : FState), (∀ e ∈ st.pricing, 0 ≤ e.2) →
      (∀ e ∈ st.dm, ∀ x ∈ e.2, 0 ≤ x.2) →
      (∀ e ∈ (prices.foldl (fun st price => sellWhile prices' price day st) st).pricing,
        0 ≤ e.2) ∧
      (∀ e ∈ (prices.foldl (fun st price => sellWhile prices' price day st) st).dm,
        ∀ x ∈ e.2, 0 ≤ x.2) := by
  intro prices
  induction prices with
  | nil => intro st hp hd; exact ⟨hp, hd⟩
  | cons q rest ih =>
      intro st hp hd
      rw [List.foldl_cons]
      obtain ⟨hp', hd'⟩ := sellLoop_nonneg prices' q day _ st hp hd
      exact ih _ hp' hd'

theorem forecastFold_nonneg (prices : List Int) :
    ∀ (days : List Int) (acc : List DataPoint × FState),
      (∀ e ∈ acc.2.pricing, 0 ≤ e.2) → (∀ e ∈ acc.2.dm, ∀ x ∈ e.2, 0 ≤ x.2) →
      (∀ e ∈ (days.foldl
          (fun acc day =>
            (acc.1 ++ [⟨day, (dayRun prices day acc.2).cnt,
              (dayRun prices day acc.2).rev⟩], dayRun prices day acc.2))
          acc).2.pricing, 0 ≤ e.2) ∧
      (∀ e ∈ (days.foldl
          (fun acc day =>
            (acc.1 ++ [⟨day, (dayRun prices day acc.2).cnt,
              (dayRun prices day acc.2).rev⟩], dayRun prices day acc.2))
          acc).2.dm, ∀ x ∈ e.2, 0 ≤ x.2) := by
  intro days
  induction days with
  | nil => intro acc hp hd; exact ⟨hp, hd⟩
  | cons day rest ih =>
      intro acc hp hd
      rw [List.foldl_cons]
      obtain ⟨hp', hd'⟩ := dayRun_nonneg prices day _ acc.2 hp hd
      exact ih _ hp' hd'

/-- C10: a forecast call that returns a forecast (no stale-data error) leaves
every seat count of `pricing` and every demand value of `demand_matrix`
non-negative whenever they were non-negative before the call: seats and
demands are only ever decremented while strictly positive. -/
theorem forecast_nonneg_C10 (pax : List Passenger) (pricing : Pricing)
    (dm : DemandMatrix) (hp : ∀ e ∈ pricing, 0 ≤ e.2)
    (hd : ∀ e ∈ dm, ∀ x ∈ e.2, 0 ≤ x.2)
    (_hok : ∃ out, (odForecast pax pricing dm).1 = Except.ok out) :
    (∀ e ∈ (odForecast pax pricing dm).2.1, 0 ≤ e.2) ∧
    (∀ e ∈ (odForecast pax pricing dm).2.2, ∀ x ∈ e.2, 0 ≤ x.2) := by
  clear _hok
  unfold odForecast forecastRun
  cases hdd : List.insertionSort (· ≤ ·) (dm.map Prod.fst) with
  | nil => exact ⟨hp, hd⟩
  | cons d0 ds =>
      cases hh : (history pax).getLast? with
      | none =>
          simp only [hh]
          rw [if_neg (show ¬d0 < (⟨d0 - 1, 0, 0⟩ : DataPoint).day by
            show ¬d0 < d0 - 1
            omega)]
          exact forecastFold_nonneg _ (d0 :: ds) ([], ⟨0, 0, pricing, dm⟩) hp hd
      | some pt =>
          simp only [hh]
          by_cases hc : d0 < pt.day
          · rw [if_pos hc]
            exact ⟨hp, hd⟩
          · rw [if_neg hc]
            exact forecastFold_nonneg _ (d0 :: ds)
              ([], ⟨pt.cnt, pt.rev, pricing, dm⟩) hp hd

/-- C10 witness: the demonstration scenario's inputs are non-negative, the
call returns a forecast, and both returned tables are non-negative. -/
theorem forecast_nonneg_C10_witness :
    (∀ e ∈ c2pricing, 0 ≤ e.2) ∧
    (∀ e ∈ c2dm, ∀ x ∈ e.2, 0 ≤ x.2) ∧
    (∃ out, (odForecast c2pax c2pricing c2dm).1 = Except.ok out) ∧
    ((∀ e ∈ (odForecast c2pax c2pricing c2dm).2.1, 0 ≤ e.2) ∧
      (∀ e ∈ (odForecast c2pax c2pricing c2dm).2.2, ∀ x ∈ e.2, 0 ≤ x.2)) :=
  ⟨by decide, by decide,
    ⟨[⟨-7, 5, 150⟩, ⟨-6, 6, 170⟩, ⟨-5, 9, 260⟩, ⟨-4, 12, 360⟩, ⟨-3, 15, 480⟩,
      ⟨-2, 18, 620⟩, ⟨-1, 21, 770⟩, ⟨0, 21, 770⟩], rfl⟩,
    forecast_nonneg_C10 c2pax c2pricing c2dm (by decide) (by decide)
      ⟨[⟨-7, 5, 150⟩, ⟨-6, 6, 170⟩, ⟨-5, 9, 260⟩, ⟨-4, 12, 360⟩, ⟨-3, 15, 480⟩,
        ⟨-2, 18, 620⟩, ⟨-1, 21, 770⟩, ⟨0, 21, 770⟩], rfl⟩⟩

/-! ### C7: the MalformedItinerary contract (spec-modelled)

`src/main.py` implements `Service.itinerary` without any structured error
handling; the specification (4.1) states that the `MalformedItinerary`
failure conditions "are not required to be exhaustively defended in the
reference implementation but must be specified as contract violations".  The
resolver below is therefore modelled from the spec's algorithm, with the
failure conditions made explicit. -/

inductive ItinError where
  | malformedItinerary
deriving DecidableEq

/-- Modelled from the spec: one chaining step of itinerary resolution
(spec 4.1).  From the current last stop, the unique remaining leg departing
from it is consumed and its destination appended; more than one such leg is
branching, none while legs remain is a stuck resolution, and both fail with
`MalformedItinerary`.  The fuel only bounds the recursion; `legs.length` is
always sufficient because every step consumes one leg. -/
def chainLegs : Nat → Station → List Leg → List Station →
    Except ItinError (List Station)
  | fuel, c, remaining, acc =>
    match remaining.filter (fun l => decide (l.origin = c)) with
    | [] =>
        if remaining.isEmpty then Except.ok acc
        else Except.error ItinError.malformedItinerary
    | [l] =>
        match fuel with
        | 0 => Except.error ItinError.malformedItinerary
        | n + 1 => chainLegs n l.destination (remaining.erase l) (acc ++ [l.destination])
    | _ :: _ :: _ => Except.error ItinError.malformedItinerary

/-- Modelled from the spec: itinerary resolution with `MalformedItinerary`
detection (spec 4.1), which is absent from `src/main.py`.  The start stop is
the unique stop among the leg origins that is not a destination; the legs are
then chained from it. -/
def itineraryChecked (legs : List Leg) : Except ItinError (List Station) :=
  match (itinerarySources legs).dedup with
  | [s] => chainLegs legs.length s legs [s]
  | _ => Except.error ItinError.malformedItinerary

/-- The step-level failure modes of the spec's itinerary resolution, phrased
as the spec words them: at some step of the chain, more than one remaining leg
shares the current stop as origin (branching), or none does while legs remain
(stuck before every leg is covered). -/
inductive ChainFails : Station → List Leg → Prop where
  | branching (c : Station) (remaining : List Leg) :
      2 ≤ (remaining.filter (fun l => decide (l.origin = c))).length →
      ChainFails c remaining
  | stuck (c : Station) (remaining : List Leg) :
      remaining ≠ [] →
      remaining.filter (fun l => decide (l.origin = c)) = [] →
      ChainFails c remaining
  | next (c : Station) (remaining : List Leg) (l : Leg) :
      remaining.filter (fun x => decide (x.origin = c)) = [l] →
      ChainFails l.destination (remaining.erase l) →
      ChainFails c remaining

theorem chainLegs_error_iff :
    ∀ (fuel : Nat) (c : Station) (remaining : List Leg) (acc : List Station),
      remaining.length ≤ fuel →
      ((∃ e, chainLegs fuel c remaining acc = Except.error e) ↔
        ChainFails c remaining) := by
  intro fuel
  induction fuel with
  | zero =>
      intro c remaining acc hlen
      have hrem : remaining = [] := List.length_eq_zero.mp (by omega)
      subst hrem
      show (∃ e, chainLegs 0 c [] acc = Except.error e) ↔ ChainFails c []
      constructor
      · rintro ⟨e, he⟩
        exact absurd he (by simp [chainLegs])
      · intro h
        cases h with
        | branching _ _ hb => simp at hb
        | stuck _ _ hne _ => exact absurd rfl hne
        | next _ _ l hf _ => simp at hf
  | succ n ih =>
      intro c remaining acc hlen
      cases hfilt : remaining.filter (fun l => decide (l.origin = c)) with
      | nil =>
          have heq : chainLegs (n + 1) c remaining acc =
              if remaining.isEmpty then Except.ok acc
              else Except.error ItinError.malformedItinerary := by
            unfold chainLegs
            rw [hfilt]
          by_cases hrem : remaining = []
          · subst hrem
            rw [heq]
            simp only [List.isEmpty_nil, if_true]
            constructor
            · rintro ⟨e, he⟩
              exact absurd he (by simp)
            · intro h
              cases h with
              | branching _ _ hb => simp at hb
              | stuck _ _ hne _ => exact absurd rfl hne
              | next _ _ l hf _ => simp at hf
          · rw [heq, if_neg (by simp [List.isEmpty_iff, hrem])]
            constructor
            · intro _
              exact ChainFails.stuck c remaining hrem hfilt
            · intro _
              exact ⟨ItinError.malformedItinerary, rfl⟩
      | cons l rest =>
          cases rest with
          | nil =>
              have hmem : l ∈ remaining := by
                have : l ∈ remaining.filter (fun x => decide (x.origin = c)) := by
                  rw [hfilt]
                  exact List.mem_singleton_self l
                exact List.mem_of_mem_filter this
              have heq : chainLegs (n + 1) c remaining acc =
                  chainLegs n l.destination (remaining.erase l)
                    (acc ++ [l.destination]) := by
                conv_lhs => rw [chainLegs]
                simp only [hfilt]
              have hlen' : (remaining.erase l).length ≤ n := by
                rw [List.length_erase_of_mem hmem]
                have : 1 ≤ remaining.length := List.length_pos.mpr
                  (fun h => by simp [h] at hmem)
                omega
              rw [heq, ih l.destination (remaining.erase l) _ hlen']
              constructor
              · intro h
                exact ChainFails.next c remaining l hfilt h
              · intro h
                cases h with
                | branching _ _ hb =>
                    rw [hfilt] at hb
                    simp at hb
                | stuck _ _ _ hf =>
                    rw [hfilt] at hf
                    simp at hf
                | next _ _ l' hf h' =>
                    rw [hfilt] at hf
                    injection hf with hf
                    subst hf
                    exact h'
          | cons l2 rest2 =>
              have heq : chainLegs (n + 1) c remaining acc =
                  Except.error ItinError.malformedItinerary := by
                unfold chainLegs
                rw [hfilt]
              rw [heq]
              constructor
              · intro _
                apply ChainFails.branching
                rw [hfilt]
                simp
              · intro _
                exact ⟨ItinError.malformedItinerary, rfl⟩

/-- C7: the spec-modelled itinerary resolution fails with
`MalformedItinerary` exactly when the legs do not form a single simple
directed path: when there is no unique source stop (no stop among the leg
origins that is absent from the destinations, or several such stops — a
cycle, or a disconnected graph), or when at some step of the chain more than
one remaining leg shares the current stop as origin (branching), or when no
remaining leg continues from the current stop before all legs are covered. -/
theorem itinerary_malformed_C7 (legs : List Leg) :
    (∃ e, itineraryChecked legs = Except.error e) ↔
      ((itinerarySources legs).dedup.length ≠ 1 ∨
        ∃ s, (itinerarySources legs).dedup = [s] ∧ ChainFails s legs) := by
  unfold itineraryChecked
  cases hd : (itinerarySources legs).dedup with
  | nil =>
      constructor
      · intro _
        exact Or.inl (by simp)
      · intro _
        exact ⟨ItinError.malformedItinerary, rfl⟩
  | cons s rest =>
      cases rest with
      | nil =>
          have h := chainLegs_error_iff legs.length s legs [s] (le_refl _)
          constructor
          · intro he
            exact Or.inr ⟨s, rfl, h.mp he⟩
          · rintro (hlen | ⟨s', hs', hc⟩)
            · simp at hlen
            · injection hs' with hs1 hs2
              subst hs1
              exact h.mpr hc
      | cons t rest' =>
          constructor
          · intro _
            exact Or.inl (by simp)
          · intro _
            exact ⟨ItinError.malformedItinerary, rfl⟩

/-! ### C6: the UnreachableOD contract (spec-modelled)

`src/main.py` implements `OD.legs` without structured error handling (an
absent origin raises `IndexError`, an unreachable destination loops forever).
Spec 4.2 specifies the `UnreachableOD` failure contract; the resolver below
is modelled from that contract. -/

inductive ODError where
  | unreachableOD
deriving DecidableEq

/-- Modelled from the spec: the chasing loop of OD path resolution
(spec 4.2), which `src/main.py` implements without `UnreachableOD` detection.
Starting from the current stop, follow the unique leg departing from it,
stopping once a leg's destination equals the OD's destination; fail with
`UnreachableOD` when no leg continues before the destination is reached.  The
fuel bounds the recursion; `legs.length + 1` outlasts every chain of distinct
legs. -/
def odChase (legs : List Leg) (dest : Station) :
    Nat → Station → Except ODError (List Leg)
  | 0, _ => Except.error ODError.unreachableOD
  | fuel + 1, current =>
      match legs.find? (fun l => decide (l.origin = current)) with
      | none => Except.error ODError.unreachableOD
      | some l =>
          if l.destination = dest then Except.ok [l]
          else
            match odChase legs dest fuel l.destination with
            | Except.ok rest => Except.ok (l :: rest)
            | Except.error e => Except.error e

/-- Modelled from the spec: `OD.legs` with the `UnreachableOD` failure of
spec 4.2: locate the origin in the resolved itinerary (failing if it is not
found), then chase the legs towards the destination. -/
def odLegsChecked (itin : List Station) (legs : List Leg)
    (origin dest : Station) : Except ODError (List Leg) :=
  if origin ∈ itin then odChase legs dest (legs.length + 1) origin
  else Except.error ODError.unreachableOD

/-- The prefix of a stop list up to and including the first occurrence of
`dest`. -/
def upTo (dest : Station) : List Station → List Station
  | [] => []
  | x :: xs => if x = dest then [x] else x :: upTo dest xs

theorem odChase_succ (legs : List Leg) (dest : Station) (fuel : Nat)
    (current : Station) :
    odChase legs dest (fuel + 1) current =
      match legs.find? (fun l => decide (l.origin = current)) with
      | none => Except.error ODError.unreachableOD
      | some l =>
          if l.destination = dest then Except.ok [l]
          else
            match odChase legs dest fuel l.destination with
            | Except.ok rest => Except.ok (l :: rest)
            | Except.error e => Except.error e := rfl

theorem loadLegs_cons_of_ne_nil (x : Station) (l : List Station) (hne : l ≠ []) :
    loadLegs (x :: l) = ⟨x, l.head hne⟩ :: loadLegs l := by
  cases l with
  | nil => exact absurd rfl hne
  | cons y ys => rfl

/-- In a duplicate-free chain, the first (and only) leg departing from an
interior stop is the consecutive pair at that stop. -/
theorem find?_loadLegs (c next : Station) (b : List Station) :
    ∀ a : List Station, (a ++ c :: next :: b).Nodup →
      (loadLegs (a ++ c :: next :: b)).find? (fun l => decide (l.origin = c)) =
        some ⟨c, next⟩ := by
  intro a
  induction a with
  | nil =>
      intro _
      show (loadLegs (c :: next :: b)).find? _ = _
      rw [show loadLegs (c :: next :: b) = ⟨c, next⟩ :: loadLegs (next :: b)
        from rfl]
      exact List.find?_cons_of_pos _ (by simp)
  | cons x a' ih =>
      intro hnd
      have hx : x ∉ a' ++ c :: next :: b := (List.nodup_cons.mp hnd).1
      have hne : a' ++ c :: next :: b ≠ [] := by simp
      show (loadLegs (x :: (a' ++ c :: next :: b))).find? _ = _
      rw [loadLegs_cons_of_ne_nil x _ hne]
      rw [List.find?_cons_of_neg]
      · exact ih (List.nodup_cons.mp hnd).2
      · simp only [decide_eq_true_eq]
        intro hc
        have hxc : x = c := hc
        rw [hxc] at hx
        exact hx (by simp)

/-- No leg departs from the final stop of a duplicate-free chain. -/
theorem find?_loadLegs_last (a : List Station) (c : Station)
    (hnd : (a ++ [c]).Nodup) :
    (loadLegs (a ++ [c])).find? (fun l => decide (l.origin = c)) = none := by
  rw [List.find?_eq_none]
  intro l hl
  simp only [decide_eq_true_eq]
  intro hc
  have horig : l.origin ∈ legOrigins (loadLegs (a ++ [c])) :=
    List.mem_map_of_mem _ hl
  rw [legOrigins_loadLegs, List.dropLast_concat] at horig
  rw [hc] at horig
  rcases List.nodup_append.mp hnd with ⟨-, -, hdisj⟩
  exact hdisj horig (by simp)

/-- Chasing along a duplicate-free chain from an interior stop reaches the
destination exactly when it occurs among the later stops, and then returns
the chain of consecutive legs up to it. -/
theorem odChase_loadLegs :
    ∀ (b a : List Station) (c dest : Station) (fuel : Nat),
      (a ++ c :: b).Nodup → b.length ≤ fuel →
      odChase (loadLegs (a ++ c :: b)) dest (fuel + 1) c =
        if dest ∈ b then Except.ok (loadLegs (c :: upTo dest b))
        else Except.error ODError.unreachableOD := by
  intro b
  induction b with
  | nil =>
      intro a c dest fuel hnd _
      rw [odChase_succ]
      simp only [find?_loadLegs_last a c hnd]
      simp
  | cons e b' ih =>
      intro a c dest fuel hnd hf
      rw [odChase_succ]
      simp only [find?_loadLegs c e b' a hnd]
      by_cases hde : e = dest
      · rw [if_pos (show (⟨c, e⟩ : Leg).destination = dest from hde)]
        rw [if_pos (show dest ∈ e :: b' by rw [← hde]; exact List.mem_cons_self _ _)]
        rw [show upTo dest (e :: b') = [e] from by simp [upTo, hde]]
        rfl
      · rw [if_neg (show ¬(⟨c, e⟩ : Leg).destination = dest from hde)]
        cases fuel with
        | zero => simp at hf
        | succ m =>
            have hdecomp : a ++ c :: e :: b' = (a ++ [c]) ++ e :: b' := by simp
            have hnd' : ((a ++ [c]) ++ e :: b').Nodup := by
              rw [← hdecomp]
              exact hnd
            have hrec := ih (a ++ [c]) e dest m hnd' (by simpa using hf)
            rw [hdecomp]
            show (match odChase (loadLegs ((a ++ [c]) ++ e :: b')) dest (m + 1) e with
              | Except.ok rest => Except.ok ((⟨c, e⟩ : Leg) :: rest)
              | Except.error e => Except.error e) = _
            rw [hrec]
            by_cases hdb : dest ∈ b'
            · rw [if_pos hdb,
                if_pos (show dest ∈ e :: b' from List.mem_cons_of_mem _ hdb),
                show upTo dest (e :: b') = e :: upTo dest b' from by
                  simp [upTo, hde]]
              rfl
            · rw [if_neg hdb, if_neg (show ¬dest ∈ e :: b' from by
                intro hmem
                rcases List.mem_cons.mp hmem with h | h
                · exact hde h.symm
                · exact hdb h)]

theorem dropWhile_ne_of_not_mem (o : Station) (b : List Station) :
    ∀ a : List Station, o ∉ a →
      (a ++ o :: b).dropWhile (fun s => decide (s ≠ o)) = o :: b := by
  intro a
  induction a with
  | nil =>
      intro _
      simp [List.dropWhile_cons]
  | cons x a' ih =>
      intro ha
      have hxo : ¬x = o := fun h => ha (by simp [h])
      have ha' : o ∉ a' := fun h => ha (List.mem_cons_of_mem _ h)
      show ((x :: (a' ++ o :: b)).dropWhile (fun s => decide (s ≠ o))) = o :: b
      rw [List.dropWhile_cons, if_pos (by simpa using hxo)]
      exact ih ha'

/-- The checked OD span ends exactly at the destination: no partial result. -/
theorem loadLegs_upTo_getLast (d : Station) :
    ∀ (b : List Station) (c : Station), d ∈ b →
      loadLegs (c :: upTo d b) ≠ [] ∧
      (loadLegs (c :: upTo d b)).getLast?.map (·.destination) = some d := by
  intro b
  induction b with
  | nil =>
      intro c h
      simp at h
  | cons e b' ih =>
      intro c hd
      by_cases hde : e = d
      · subst hde
        rw [show upTo e (e :: b') = [e] from by simp [upTo]]
        exact ⟨by simp [loadLegs], rfl⟩
      · have hdb' : d ∈ b' := by
          rcases List.mem_cons.mp hd with h | h
          · exact absurd h.symm hde
          · exact h
        rw [show upTo d (e :: b') = e :: upTo d b' from by simp [upTo, hde]]
        obtain ⟨hne, hlast⟩ := ih e hdb'
        rw [show loadLegs (c :: e :: upTo d b') =
          (⟨c, e⟩ : Leg) :: loadLegs (e :: upTo d b') from rfl]
        refine ⟨by simp, ?_⟩
        cases hload : loadLegs (e :: upTo d b') with
        | nil => exact absurd hload hne
        | cons lg tl =>
            rw [List.getLast?_cons_cons]
            rw [hload] at hlast
            exact hlast

/-- C6: the spec-modelled OD path resolution fails with `UnreachableOD`
exactly when the OD's origin is not found in the itinerary or its destination
is not among the stops reachable after the origin (never reached while
following the leg chain); when it succeeds there is no partial result: the
returned chain is non-empty and its last leg ends exactly at the
destination. -/
theorem odlegs_unreachable_C6 (stops : List Station) (hnd : stops.Nodup)
    (o d : Station) :
    (odLegsChecked stops (loadLegs stops) o d = Except.error ODError.unreachableOD ↔
      (o ∉ stops ∨ d ∉ (stops.dropWhile (fun s => decide (s ≠ o))).tail)) ∧
    (∀ out, odLegsChecked stops (loadLegs stops) o d = Except.ok out →
      out ≠ [] ∧ out.getLast?.map (·.destination) = some d) := by
  unfold odLegsChecked
  by_cases ho : o ∈ stops
  · rw [if_pos ho]
    obtain ⟨a, b, hab⟩ := List.append_of_mem ho
    subst hab
    have hoa : o ∉ a := by
      rcases List.nodup_append.mp hnd with ⟨-, -, hdisj⟩
      intro h
      exact hdisj h (List.mem_cons_self _ _)
    have hdrop : ((a ++ o :: b).dropWhile (fun s => decide (s ≠ o))).tail = b := by
      rw [dropWhile_ne_of_not_mem o b a hoa]
      rfl
    have hfuel : b.length ≤ (loadLegs (a ++ o :: b)).length := by
      rw [length_loadLegs]
      simp [List.length_append]
    have hchase := odChase_loadLegs b a o d (loadLegs (a ++ o :: b)).length hnd hfuel
    rw [hchase, hdrop]
    by_cases hdb : d ∈ b
    · rw [if_pos hdb]
      constructor
      · constructor
        · intro h
          exact absurd h (by simp)
        · rintro (h | h)
          · exact absurd ho h
          · exact absurd hdb h
      · intro out hout
        injection hout with hout
        subst hout
        exact loadLegs_upTo_getLast d b o hdb
    · rw [if_neg hdb]
      refine ⟨⟨fun _ => Or.inr hdb, fun _ => rfl⟩, ?_⟩
      intro out hout
      exact absurd hout (by simp)
  · rw [if_neg ho]
    refine ⟨⟨fun _ => Or.inl ho, fun _ => rfl⟩, ?_⟩
    intro out hout
    exact absurd hout (by simp)

/-- C6 witness: on the demonstration itinerary `[0, 1, 2]` the checked OD
path resolution satisfies the `UnreachableOD` characterization (for the OD
from stop 0 to stop 2). -/
theorem odlegs_unreachable_C6_witness :
    ([0, 1, 2] : List Station).Nodup ∧
    ((odLegsChecked [0, 1, 2] (loadLegs [0, 1, 2]) 0 2 =
        Except.error ODError.unreachableOD ↔
      ((0 : Station) ∉ ([0, 1, 2] : List Station) ∨
        (2 : Station) ∉ (([0, 1, 2] : List Station).dropWhile
          (fun s => decide (s ≠ 0))).tail)) ∧
      (∀ out, odLegsChecked [0, 1, 2] (loadLegs [0, 1, 2]) 0 2 = Except.ok out →
        out ≠ [] ∧ out.getLast?.map (·.destination) = some 2)) :=
  ⟨by decide, odlegs_unreachable_C6 [0, 1, 2] (by decide) 0 2⟩

/-! ### C1: the forecast algorithm refines the claim's description

The definitions below (`claim...`) are written from the claim's words — one
day at a time in ascending day order, one price tier at a time in ascending
price order, selling single seats while the day's demand at the tier and the
tier's remaining seats are both strictly positive, with the buy-down cascade
decrementing the day's demand of every tier priced at least the current
price whose demand is positive.  They carry only the current day's demand
row, while the source threads the whole matrix in place; the refinement
theorem proves both agree. -/

/-- The claim-side state: current cumulative count and revenue, remaining
seats per tier, and the current day's remaining demand row. -/
structure ClaimState where
  cnt : Int
  rev : Int
  seats : Pricing
  row : DemandRow
deriving DecidableEq

/-- Claim wording: decrement by 1 the day's demand of every tier whose price
is at least the current price and whose demand is positive. -/
def claimCascade (tiers : List Int) (price : Int) (row : DemandRow) : DemandRow :=
  tiers.foldl
    (fun r up =>
      if price ≤ up ∧ 0 < lookupD r up 0 then modKey (fun v => v - 1) r up
      else r)
    row

/-- Claim wording: while the tier's remaining demand for the day and its
remaining seats are both strictly positive, sell one seat (count + 1, revenue
+ price, seats - 1) and run the cascade. -/
def claimSell (tiers : List Int) (price : Int) : Nat → ClaimState → ClaimState
  | 0, s => s
  | n + 1, s =>
      if 0 < lookupD s.row price 0 ∧ 0 < lookupD s.seats price 0 then
        claimSell tiers price n
          ⟨s.cnt + 1, s.rev + price, modKey (fun v => v - 1) s.seats price,
            claimCascade tiers price s.row⟩
      else s

/-- Claim wording: within a day, process the price tiers in ascending price
order. -/
def claimDay (tiers : List Int) (s : ClaimState) : ClaimState :=
  tiers.foldl
    (fun s price => claimSell tiers price (lookupD s.seats price 0).toNat s) s

/-- Claim wording: process the day offsets in ascending order, each day
producing one point `[day, cumulative count, cumulative revenue]` and carrying
count, revenue and seats forward. -/
def claimForecastAux (tiers : List Int) (dm : DemandMatrix) :
    List Int → Int → Int → Pricing → List DataPoint
  | [], _, _, _ => []
  | day :: rest, cnt, rev, seats =>
      let s := claimDay tiers ⟨cnt, rev, seats, lookupD dm day []⟩
      ⟨day, s.cnt, s.rev⟩ :: claimForecastAux tiers dm rest s.cnt s.rev s.seats

/-- The claim's description of the forecast output: every day offset of the
demand matrix in ascending order, primed from the last history point (or zero
for an empty history), the seed point excluded. -/
def claimForecast (hist : List DataPoint) (pricing : Pricing)
    (dm : DemandMatrix) : List DataPoint :=
  let days := List.insertionSort (· ≤ ·) (dm.map Prod.fst)
  let tiers := List.insertionSort (· ≤ ·) (pricing.map Prod.fst)
  match hist.getLast? with
  | none => claimForecastAux tiers dm days 0 0 pricing
  | some p => claimForecastAux tiers dm days p.cnt p.rev pricing

theorem lookupD_eq_dflt_of_not_mem {α β : Type} [DecidableEq α]
    (m : List (α × β)) (k : α) (d : β) (h : k ∉ m.map Prod.fst) :
    lookupD m k d = d := by
  induction m with
  | nil => rfl
  | cons a rest ih =>
      obtain ⟨k₀, v⟩ := a
      have hk : ¬k₀ = k := by
        intro hc
        exact h (by simp [hc])
      simp only [lookupD, if_neg hk]
      exact ih (fun hc => h (by simp [hc]))

theorem cascade_cons (price day up : Int) (rest : List Int) (dm : DemandMatrix) :
    cascade (up :: rest) price day dm =
      cascade rest price day
        (if price ≤ up ∧ 0 < demandAt dm day up then
          modKey (fun row => modKey (fun v => v - 1) row up) dm day
        else dm) := rfl

theorem claimCascade_cons (price up : Int) (rest : List Int) (row : DemandRow) :
    claimCascade (up :: rest) price row =
      claimCascade rest price
        (if price ≤ up ∧ 0 < lookupD row up 0 then
          modKey (fun v => v - 1) row up
        else row) := rfl

/-- The in-place cascade on the whole matrix agrees with the claim's cascade
on the day's row, leaves every other day's row untouched, and preserves the
set of day keys. -/
theorem cascade_at_day (price day : Int) :
    ∀ (prices : List Int) (dm : DemandMatrix),
      lookupD (cascade prices price day dm) day [] =
        claimCascade prices price (lookupD dm day []) ∧
      (∀ d : Int, d ≠ day →
        lookupD (cascade prices price day dm) d [] = lookupD dm d []) ∧
      (cascade prices price day dm).map Prod.fst = dm.map Prod.fst := by
  intro prices
  induction prices with
  | nil => intro dm; exact ⟨rfl, fun _ _ => rfl, rfl⟩
  | cons up rest ih =>
      intro dm
      rw [cascade_cons, claimCascade_cons]
      by_cases h : price ≤ up ∧ 0 < demandAt dm day up
      · have h' : price ≤ up ∧ 0 < lookupD (lookupD dm day []) up 0 := h
        rw [if_pos h, if_pos h']
        have hmem : day ∈ dm.map Prod.fst := by
          by_contra hnm
          have hrow : lookupD dm day [] = ([] : DemandRow) :=
            lookupD_eq_dflt_of_not_mem dm day [] hnm
          have := h.2
          rw [show demandAt dm day up = lookupD (lookupD dm day []) up 0 from rfl,
            hrow] at this
          simp [lookupD] at this
        have hrow' : lookupD (modKey (fun row => modKey (fun v => v - 1) row up) dm day) day [] =
            modKey (fun v => v - 1) (lookupD dm day []) up := by
          rw [lookupD_modKey_self, if_pos hmem]
        obtain ⟨ih1, ih2, ih3⟩ := ih (modKey (fun row => modKey (fun v => v - 1) row up) dm day)
        refine ⟨?_, ?_, ?_⟩
        · rw [ih1, hrow']
        · intro d hd
          rw [ih2 d hd, lookupD_modKey_ne _ _ _ _ _ hd]
        · rw [ih3, keys_modKey]
      · have h' : ¬(price ≤ up ∧ 0 < lookupD (lookupD dm day []) up 0) := h
        rw [if_neg h, if_neg h']
        exact ih dm

/-- The source's inner while loop refines the claim's selling loop: both make
the same sales, mutate the seats identically, mutate only the current day's
demand row, and agree on that row. -/
theorem sellLoop_corr (prices : List Int) (price day : Int) :
    ∀ (n : Nat) (st : FState),
      claimSell prices price n ⟨st.cnt, st.rev, st.pricing, lookupD st.dm day []⟩ =
        ⟨(sellLoop prices price day n st).cnt,
          (sellLoop prices price day n st).rev,
          (sellLoop prices price day n st).pricing,
          lookupD (sellLoop prices price day n st).dm day []⟩ ∧
      (∀ d : Int, d ≠ day →
        lookupD (sellLoop prices price day n st).dm d [] = lookupD st.dm d []) ∧
      (sellLoop prices price day n st).dm.map Prod.fst = st.dm.map Prod.fst := by
  intro n
  induction n with
  | zero => intro st; exact ⟨rfl, fun _ _ => rfl, rfl⟩
  | succ n ih =>
      intro st
      rw [sellLoop_succ]
      by_cases hg : sellGuard day price st
      · rw [if_pos hg]
        have hspec : (0 < lookupD (lookupD st.dm day []) price 0 ∧
            0 < lookupD st.pricing price 0) := hg
        have hstep : claimSell prices price (n + 1)
            ⟨st.cnt, st.rev, st.pricing, lookupD st.dm day []⟩ =
            claimSell prices price n
              ⟨st.cnt + 1, st.rev + price,
                modKey (fun v => v - 1) st.pricing price,
                claimCascade prices price (lookupD st.dm day [])⟩ := by
          show (if 0 < lookupD (lookupD st.dm day []) price 0 ∧
              0 < lookupD st.pricing price 0 then _ else _) = _
          rw [if_pos hspec]
        rw [hstep]
        obtain ⟨hc1, hc2, hc3⟩ := cascade_at_day price day prices st.dm
        have hproj : (⟨st.cnt + 1, st.rev + price,
            modKey (fun v => v - 1) st.pricing price,
            claimCascade prices price (lookupD st.dm day [])⟩ : ClaimState) =
            ⟨(sellStep prices price day st).cnt, (sellStep prices price day st).rev,
              (sellStep prices price day st).pricing,
              lookupD (sellStep prices price day st).dm day []⟩ := by
          show _ = (⟨st.cnt + 1, st.rev + price,
            modKey (fun v => v - 1) st.pricing price,
            lookupD (cascade prices price day st.dm) day []⟩ : ClaimState)
          rw [hc1]
        rw [hproj]
        obtain ⟨ih1, ih2, ih3⟩ := ih (sellStep prices price day st)
        refine ⟨ih1, ?_, ?_⟩
        · intro d hd
          rw [ih2 d hd]
          exact hc2 d hd
        · rw [ih3]
          exact hc3
      · rw [if_neg hg]
        have hspec : ¬(0 < lookupD (lookupD st.dm day []) price 0 ∧
            0 < lookupD st.pricing price 0) := hg
        refine ⟨?_, fun _ _ => rfl, rfl⟩
        show (if 0 < lookupD (lookupD st.dm day []) price 0 ∧
            0 < lookupD st.pricing price 0 then _ else _) = _
        rw [if_neg hspec]

/-- The source's per-day tier loop refines the claim's tier loop. -/
theorem dayFold_corr (prices : List Int) (day : Int) :
    ∀ (tiers : List Int) (st : FState),
      tiers.foldl
          (fun s price => claimSell prices price (lookupD s.seats price 0).toNat s)
          ⟨st.cnt, st.rev, st.pricing, lookupD st.dm day []⟩ =
        ⟨(tiers.foldl (fun st price => sellWhile prices price day st) st).cnt,
          (tiers.foldl (fun st price => sellWhile prices price day st) st).rev,
          (tiers.foldl (fun st price => sellWhile prices price day st) st).pricing,
          lookupD (tiers.foldl (fun st price => sellWhile prices price day st) st).dm
            day []⟩ ∧
      (∀ d : Int, d ≠ day →
        lookupD (tiers.foldl (fun st price => sellWhile prices price day st) st).dm
            d [] = lookupD st.dm d []) ∧
      (tiers.foldl (fun st price => sellWhile prices price day st) st).dm.map
          Prod.fst = st.dm.map Prod.fst := by
  intro tiers
  induction tiers with
  | nil => intro st; exact ⟨rfl, fun _ _ => rfl, rfl⟩
  | cons q rest ih =>
      intro st
      simp only [List.foldl_cons]
      obtain ⟨hs1, hs2, hs3⟩ :=
        sellLoop_corr prices q day ((lookupD st.pricing q 0).toNat) st
      have hw : sellLoop prices q day ((lookupD st.pricing q 0).toNat) st =
          sellWhile prices q day st := rfl
      rw [hw] at hs1 hs2 hs3
      obtain ⟨ih1, ih2, ih3⟩ := ih (sellWhile prices q day st)
      refine ⟨?_, ?_, ?_⟩
      · rw [hs1]
        exact ih1
      · intro d hd
        rw [ih2 d hd]
        exact hs2 d hd
      · rw [ih3]
        exact hs3

theorem claimForecastAux_cons (tiers : List Int) (dm : DemandMatrix) (day : Int)
    (rest : List Int) (cnt rev : Int) (seats : Pricing) :
    claimForecastAux tiers dm (day :: rest) cnt rev seats =
      ⟨day, (claimDay tiers ⟨cnt, rev, seats, lookupD dm day []⟩).cnt,
        (claimDay tiers ⟨cnt, rev, seats, lookupD dm day []⟩).rev⟩ ::
      claimForecastAux tiers dm rest
        (claimDay tiers ⟨cnt, rev, seats, lookupD dm day []⟩).cnt
        (claimDay tiers ⟨cnt, rev, seats, lookupD dm day []⟩).rev
        (claimDay tiers ⟨cnt, rev, seats, lookupD dm day []⟩).seats := rfl

theorem claimForecastAux_days (tiers : List Int) (dm : DemandMatrix) :
    ∀ (days : List Int) (cnt rev : Int) (seats : Pricing),
      (claimForecastAux tiers dm days cnt rev seats).map (·.day) = days := by
  intro days
  induction days with
  | nil => intro cnt rev seats; rfl
  | cons day rest ih =>
      intro cnt rev seats
      rw [claimForecastAux_cons]
      simp only [List.map_cons, ih]

/-- The source's day fold refines the claim's day recursion, provided the
day offsets are pairwise distinct and the threaded matrix still agrees with
the original one on every remaining day. -/
theorem forecastFold_corr (prices : List Int) (dm0 : DemandMatrix) :
    ∀ days : List Int, days.Nodup →
      ∀ (st : FState) (acc : List DataPoint),
        (∀ d ∈ days, lookupD st.dm d [] = lookupD dm0 d []) →
        (days.foldl
          (fun acc day =>
            (acc.1 ++ [⟨day, (dayRun prices day acc.2).cnt,
              (dayRun prices day acc.2).rev⟩], dayRun prices day acc.2))
          (acc, st)).1 =
          acc ++ claimForecastAux prices dm0 days st.cnt st.rev st.pricing := by
  intro days
  induction days with
  | nil => intro _ st acc _; simp [claimForecastAux]
  | cons day rest ihd =>
      intro hnd st acc hrow
      simp only [List.foldl_cons]
      rw [claimForecastAux_cons]
      have hrow0 : lookupD dm0 day [] = lookupD st.dm day [] :=
        (hrow day (List.mem_cons_self _ _)).symm
      obtain ⟨hd1, hd2, hd3⟩ := dayFold_corr prices day prices st
      have hclaim : claimDay prices ⟨st.cnt, st.rev, st.pricing, lookupD dm0 day []⟩ =
          ⟨(dayRun prices day st).cnt, (dayRun prices day st).rev,
            (dayRun prices day st).pricing,
            lookupD (dayRun prices day st).dm day []⟩ := by
        rw [hrow0]
        exact hd1
      rw [hclaim]
      have hrow' : ∀ d ∈ rest,
          lookupD (dayRun prices day st).dm d [] = lookupD dm0 d [] := by
        intro d hd
        have hne : d ≠ day := by
          rintro rfl
          exact (List.nodup_cons.mp hnd).1 hd
        exact (hd2 d hne).trans (hrow d (List.mem_cons_of_mem _ hd))
      have hrec := ihd (List.nodup_cons.mp hnd).2 (dayRun prices day st)
        (acc ++ [⟨day, (dayRun prices day st).cnt, (dayRun prices day st).rev⟩])
        hrow'
      rw [hrec]
      simp

/-- C1: on any OD and any `(pricing, demand_matrix)` pair whose rows cover
every price of `pricing`, with pairwise-distinct day offsets and the earliest
demand day not preceding the OD's last history day, `OD.forecast` succeeds
and produces exactly the claim's process: days in ascending order, tiers in
ascending price order, one seat sold per iteration while the day's demand at
the tier and the tier's seats are both positive, with the buy-down cascade,
and exactly one point `[day, cumulative count, cumulative revenue]` per day
offset of the demand matrix, in ascending day order, the carry-forward seed
excluded. -/
theorem forecast_refines_claim_C1 (pax : List Passenger) (pricing : Pricing)
    (dm : DemandMatrix) (hne : dm ≠ [])
    (hnodup : (dm.map Prod.fst).Nodup)
    (_hcover : ∀ e ∈ dm, ∀ pk ∈ pricing.map Prod.fst, pk ∈ e.2.map Prod.fst)
    (hfresh : ∀ pt, (history pax).getLast? = some pt →
      ∀ dday ∈ dm.map Prod.fst, pt.day ≤ dday) :
    (odForecast pax pricing dm).1 =
      Except.ok (claimForecast (history pax) pricing dm) ∧
    ((claimForecast (history pax) pricing dm).map (·.day)).Perm
      (dm.map Prod.fst) ∧
    ((claimForecast (history pax) pricing dm).map (·.day)).Pairwise (· < ·) := by
  clear _hcover
  have hdperm : (List.insertionSort (· ≤ ·) (dm.map Prod.fst)).Perm
      (dm.map Prod.fst) := List.perm_insertionSort _ _
  have hdsorted : (List.insertionSort (· ≤ ·) (dm.map Prod.fst)).Pairwise (· ≤ ·) :=
    List.sorted_insertionSort _ _
  have hdnodup : (List.insertionSort (· ≤ ·) (dm.map Prod.fst)).Nodup :=
    hdperm.nodup_iff.mpr hnodup
  have hdlt : (List.insertionSort (· ≤ ·) (dm.map Prod.fst)).Pairwise (· < ·) :=
    (hdsorted.and hdnodup).imp (fun h => lt_of_le_of_ne h.1 h.2)
  have hmap : (claimForecast (history pax) pricing dm).map (·.day) =
      List.insertionSort (· ≤ ·) (dm.map Prod.fst) := by
    unfold claimForecast
    cases (history pax).getLast? with
    | none => exact claimForecastAux_days _ _ _ _ _ _
    | some p => exact claimForecastAux_days _ _ _ _ _ _
  refine ⟨?_, by rw [hmap]; exact hdperm, by rw [hmap]; exact hdlt⟩
  have hdne : List.insertionSort (· ≤ ·) (dm.map Prod.fst) ≠ [] := by
    intro h
    apply hne
    have h2 : dm.map Prod.fst = [] := by
      have := hdperm
      rw [h] at this
      exact this.symm.eq_nil
    simpa using h2
  obtain ⟨d0, ds, hdsEq⟩ : ∃ d0 ds,
      List.insertionSort (· ≤ ·) (dm.map Prod.fst) = d0 :: ds := by
    cases h : List.insertionSort (· ≤ ·) (dm.map Prod.fst) with
    | nil => exact absurd h hdne
    | cons a l => exact ⟨a, l, rfl⟩
  have hd0mem : d0 ∈ dm.map Prod.fst := by
    apply hdperm.subset
    rw [hdsEq]
    exact List.mem_cons_self _ _
  have hfold := forecastFold_corr (List.insertionSort (· ≤ ·) (pricing.map Prod.fst)) dm
  unfold odForecast forecastRun claimForecast
  rw [hdsEq]
  cases hh : (history pax).getLast? with
  | none =>
      simp only [hh]
      rw [if_neg (show ¬d0 < (⟨d0 - 1, 0, 0⟩ : DataPoint).day by
        show ¬d0 < d0 - 1
        omega)]
      have := hfold (d0 :: ds) (hdsEq ▸ hdnodup)
        ⟨0, 0, pricing, dm⟩ [] (fun d _ => rfl)
      simp only [List.nil_append] at this
      rw [this]
  | some pt =>
      simp only [hh]
      rw [if_neg (show ¬d0 < pt.day from by
        have := hfresh pt hh d0 hd0mem
        omega)]
      have := hfold (d0 :: ds) (hdsEq ▸ hdnodup)
        ⟨pt.cnt, pt.rev, pricing, dm⟩ [] (fun d _ => rfl)
      simp only [List.nil_append] at this
      rw [this]

/-- C1 witness: the demonstration scenario satisfies every hypothesis of the
refinement and its conclusion. -/
theorem forecast_refines_claim_C1_witness :
    (c2dm ≠ []) ∧
    (c2dm.map Prod.fst).Nodup ∧
    (∀ e ∈ c2dm, ∀ pk ∈ c2pricing.map Prod.fst, pk ∈ e.2.map Prod.fst) ∧
    (∀ pt, (history c2pax).getLast? = some pt →
      ∀ dday ∈ c2dm.map Prod.fst, pt.day ≤ dday) ∧
    ((odForecast c2pax c2pricing c2dm).1 =
        Except.ok (claimForecast (history c2pax) c2pricing c2dm) ∧
      ((claimForecast (history c2pax) c2pricing c2dm).map (·.day)).Perm
        (c2dm.map Prod.fst) ∧
      ((claimForecast (history c2pax) c2pricing c2dm).map (·.day)).Pairwise
        (· < ·)) :=
  ⟨by decide, by decide, by decide,
    by
      intro pt hpt
      rw [show (history c2pax).getLast? = some ⟨-20, 4, 130⟩ from rfl] at hpt
      injection hpt with h
      subst h
      decide,
    forecast_refines_claim_C1 c2pax c2pricing c2dm (by decide) (by decide)
      (by decide)
      (by
        intro pt hpt
        rw [show (history c2pax).getLast? = some ⟨-20, 4, 130⟩ from rfl] at hpt
        injection hpt with h
        subst h
        decide)⟩

end Transport
